import Mathlib

/-!
Verification development for the fpf-wiki markdown decomposition parser and
ingestion pipeline (fpf.spec-model.v1.js) and the client auto-link component
(client/src/components/pattern-link.tsx).

The JavaScript source relies on JS regular expressions.  We embed the exact
regexes used by the source as abstract-syntax values of a small inductive type
RE, together with a matcher that reproduces JS backtracking semantics: the
matcher returns the list of all match candidates in JS priority order (greedy
quantifiers produce longer candidates first, alternation is tried left to
right, lazy quantifiers produce shorter candidates first), and the JS match is
the head of that list.
-/

namespace FPF

/-- JS word character, used by the \b word-boundary assertion: [A-Za-z0-9_]. -/
def isWordChar (c : Char) : Bool :=
  (65 ≤ c.toNat && c.toNat ≤ 90) || (97 ≤ c.toNat && c.toNat ≤ 122) ||
  (48 ≤ c.toNat && c.toNat ≤ 57) || c == '_'

/-- JS whitespace (the \s class and the set trimmed by String.prototype.trim). -/
def isJsSpace (c : Char) : Bool :=
  let n := c.toNat
  (9 ≤ n && n ≤ 13) || n == 32 || n == 160 || n == 0x1680 ||
  (0x2000 ≤ n && n ≤ 0x200a) || n == 0x2028 || n == 0x2029 ||
  n == 0x202f || n == 0x205f || n == 0x3000 || n == 0xfeff

/-- JS dot (the . metacharacter without the s flag): any char except a line
terminator (\n, \r, U+2028, U+2029). -/
def isDotChar (c : Char) : Bool :=
  !(c == '\n' || c == '\r' || c.toNat == 0x2028 || c.toNat == 0x2029)

def isUpperAscii (c : Char) : Bool := 65 ≤ c.toNat && c.toNat ≤ 90

def isLowerAscii (c : Char) : Bool := 97 ≤ c.toNat && c.toNat ≤ 122

def isAsciiLetter (c : Char) : Bool := isUpperAscii c || isLowerAscii c

def isDigitChar (c : Char) : Bool := 48 ≤ c.toNat && c.toNat ≤ 57

/-- ASCII uppercasing, the effect of String.prototype.toUpperCase on the ASCII
text this code applies it to. -/
def upperChar (c : Char) : Char :=
  if isLowerAscii c then Char.ofNat (c.toNat - 32) else c

def upperList (s : List Char) : List Char := s.map upperChar

/-- Regular-expression abstract syntax covering the constructs used by the
source's regex literals. -/
inductive RE where
  | eps : RE
  | cls : (Char → Bool) → RE
  | seq : RE → RE → RE
  | alt : RE → RE → RE
  | star : RE → RE
  | lazyStar : RE → RE
  | opt : RE → RE
  | grp : Nat → RE → RE
  | wb : RE
  | eos : RE

/-- One match candidate: the consumed characters, the captures recorded so
far (group index paired with the captured characters), and the rest of the
input. -/
structure Cand where
  consumed : List Char
  caps : List (Nat × List Char)
  rest : List Char

/-- The character immediately before the current position: the last consumed
character, or the character before the whole attempt when nothing was
consumed yet.  Needed by the \b assertion. -/
def lastOr (prev : Option Char) (c : List Char) : Option Char :=
  match c.getLast? with
  | some ch => some ch
  | none => prev

def isWordOpt (o : Option Char) : Bool :=
  match o with
  | some c => isWordChar c
  | none => false

/-- One layer of matching, structurally recursive on the regex; star and
lazy-star iterations go through the step function (the matcher at the next
smaller fuel), and each counted iteration must consume at least one
character (JS also terminates a quantifier loop as soon as an iteration
matches the empty string, and no quantified subexpression of the embedded
regexes contains a capturing group, so dropping empty iterations is
observation-equivalent). -/
def mtchGo (step : RE → Option Char → List Char → List Cand) :
    RE → Option Char → List Char → List Cand
  | .eps, _, s => [⟨[], [], s⟩]
  | .cls p, _, s =>
    match s with
    | [] => []
    | c :: rest => if p c then [⟨[c], [], rest⟩] else []
  | .seq a b, prev, s =>
    (mtchGo step a prev s).flatMap fun ca =>
      (mtchGo step b (lastOr prev ca.consumed) ca.rest).map fun cb =>
        ⟨ca.consumed ++ cb.consumed, ca.caps ++ cb.caps, cb.rest⟩
  | .alt a b, prev, s => mtchGo step a prev s ++ mtchGo step b prev s
  | .opt a, prev, s => mtchGo step a prev s ++ [⟨[], [], s⟩]
  | .star a, prev, s =>
    (((step a prev s).filter fun c => !c.consumed.isEmpty).flatMap fun ca =>
      (step (.star a) (lastOr prev ca.consumed) ca.rest).map fun cb =>
        ⟨ca.consumed ++ cb.consumed, ca.caps ++ cb.caps, cb.rest⟩) ++ [⟨[], [], s⟩]
  | .lazyStar a, prev, s =>
    ⟨[], [], s⟩ :: (((step a prev s).filter fun c => !c.consumed.isEmpty).flatMap fun ca =>
      (step (.lazyStar a) (lastOr prev ca.consumed) ca.rest).map fun cb =>
        ⟨ca.consumed ++ cb.consumed, ca.caps ++ cb.caps, cb.rest⟩)
  | .grp i a, prev, s =>
    (mtchGo step a prev s).map fun c => ⟨c.consumed, c.caps ++ [(i, c.consumed)], c.rest⟩
  | .wb, prev, s =>
    if isWordOpt prev != isWordOpt s.head? then [⟨[], [], s⟩] else []
  | .eos, _, s => if s.isEmpty then [⟨[], [], s⟩] else []

/-- All match candidates of a regex against an input suffix, in JS priority
order (greedy quantifiers longer-first, alternation left-first, lazy
quantifiers shorter-first); the JS match is the head.  The fuel bounds star
iterations; every counted iteration consumes at least one character, hence
fuel input-length + 8 is always sufficient for the regexes embedded here. -/
def mtch : Nat → RE → Option Char → List Char → List Cand
  | 0, re, prev, s => mtchGo (fun _ _ _ => []) re prev s
  | f + 1, re, prev, s => mtchGo (mtch f) re prev s

/-- Every candidate of one matching layer splits the input, provided the
step function does. -/
theorem mtchGo_split (step : RE → Option Char → List Char → List Cand)
    (hstep : ∀ re prev s, ∀ c ∈ step re prev s, c.consumed ++ c.rest = s) :
    ∀ (re : RE) (prev : Option Char) (s : List Char),
      ∀ c ∈ mtchGo step re prev s, c.consumed ++ c.rest = s := by
  intro re
  induction re with
  | eps => intro prev s c hc; simp [mtchGo] at hc; simp [hc]
  | cls p =>
    intro prev s c hc
    cases s with
    | nil => simp [mtchGo] at hc
    | cons a t =>
      by_cases h : p a
      · simp [mtchGo, h] at hc; simp [hc]
      · simp [mtchGo, h] at hc
  | seq a b iha ihb =>
    intro prev s c hc
    simp only [mtchGo, List.mem_flatMap, List.mem_map] at hc
    obtain ⟨ca, hca, cb, hcb, rfl⟩ := hc
    have h1 := iha prev s ca hca
    have h2 := ihb (lastOr prev ca.consumed) ca.rest cb hcb
    simp only [List.append_assoc, h2, h1]
  | alt a b iha ihb =>
    intro prev s c hc
    simp only [mtchGo, List.mem_append] at hc
    rcases hc with h | h
    · exact iha prev s c h
    · exact ihb prev s c h
  | star a iha =>
    intro prev s c hc
    simp only [mtchGo, List.mem_append, List.mem_flatMap, List.mem_map,
      List.mem_filter, List.mem_singleton] at hc
    rcases hc with ⟨ca, ⟨hca, _⟩, cb, hcb, rfl⟩ | rfl
    · have h1 := hstep a prev s ca hca
      have h2 := hstep (.star a) (lastOr prev ca.consumed) ca.rest cb hcb
      simp only [List.append_assoc, h2, h1]
    · simp
  | lazyStar a iha =>
    intro prev s c hc
    simp only [mtchGo, List.mem_cons, List.mem_flatMap, List.mem_map,
      List.mem_filter] at hc
    rcases hc with rfl | ⟨ca, ⟨hca, _⟩, cb, hcb, rfl⟩
    · simp
    · have h1 := hstep a prev s ca hca
      have h2 := hstep (.lazyStar a) (lastOr prev ca.consumed) ca.rest cb hcb
      simp only [List.append_assoc, h2, h1]
  | opt a iha =>
    intro prev s c hc
    simp only [mtchGo, List.mem_append, List.mem_singleton] at hc
    rcases hc with h | rfl
    · exact iha prev s c h
    · simp
  | grp i a iha =>
    intro prev s c hc
    simp only [mtchGo, List.mem_map] at hc
    obtain ⟨c0, hc0, rfl⟩ := hc
    exact iha prev s c0 hc0
  | wb =>
    intro prev s c hc
    by_cases h : isWordOpt prev != isWordOpt s.head?
    · simp [mtchGo, h] at hc; simp [hc]
    · simp [mtchGo, h] at hc
  | eos =>
    intro prev s c hc
    by_cases h : s.isEmpty
    · simp [mtchGo, h] at hc
      simp [hc, List.isEmpty_iff.mp h]
    · simp [mtchGo, h] at hc

/-- Every candidate splits the input: consumed ++ rest = input. -/
theorem mtch_split : ∀ (f : Nat) (re : RE) (prev : Option Char) (s : List Char),
    ∀ c ∈ mtch f re prev s, c.consumed ++ c.rest = s := by
  intro f
  induction f with
  | zero =>
    intro re prev s c hc
    exact mtchGo_split _ (by intro re2 prev2 s2 c2 hc2; simp at hc2) re prev s c hc
  | succ n ih =>
    intro re prev s c hc
    exact mtchGo_split _ ih re prev s c hc

/-- Syntactic non-nullability: a regex that can only match by consuming at
least one character. -/
def nonNull : RE → Bool
  | .eps => false
  | .cls _ => true
  | .seq a b => nonNull a || nonNull b
  | .alt a b => nonNull a && nonNull b
  | .star _ => false
  | .lazyStar _ => false
  | .opt _ => false
  | .grp _ a => nonNull a
  | .wb => false
  | .eos => false

/-- Captured characters come from the consumed characters, and a candidate
of a non-nullable regex consumes at least one character — for one matching
layer, provided the step function satisfies the same properties. -/
theorem mtchGo_caps_nonNull (step : RE → Option Char → List Char → List Cand)
    (hstep : ∀ re prev s, ∀ c ∈ step re prev s,
      (∀ g ∈ c.caps, ∀ ch ∈ g.2, ch ∈ c.consumed) ∧
      (nonNull re = true → c.consumed ≠ [])) :
    ∀ (re : RE) (prev : Option Char) (s : List Char),
      ∀ c ∈ mtchGo step re prev s,
        (∀ g ∈ c.caps, ∀ ch ∈ g.2, ch ∈ c.consumed) ∧
        (nonNull re = true → c.consumed ≠ []) := by
  intro re
  induction re with
  | eps =>
    intro prev s c hc; simp [mtchGo] at hc; simp [hc, nonNull]
  | cls p =>
    intro prev s c hc
    cases s with
    | nil => simp [mtchGo] at hc
    | cons a t =>
      by_cases h : p a
      · simp [mtchGo, h] at hc; simp [hc]
      · simp [mtchGo, h] at hc
  | seq a b iha ihb =>
    intro prev s c hc
    simp only [mtchGo, List.mem_flatMap, List.mem_map] at hc
    obtain ⟨ca, hca, cb, hcb, rfl⟩ := hc
    have h1 := iha prev s ca hca
    have h2 := ihb (lastOr prev ca.consumed) ca.rest cb hcb
    refine ⟨?_, ?_⟩
    · intro g hg ch hch
      simp only [List.mem_append] at hg ⊢
      rcases hg with hg | hg
      · exact Or.inl (h1.1 g hg ch hch)
      · exact Or.inr (h2.1 g hg ch hch)
    · intro hnn
      simp only [nonNull, Bool.or_eq_true] at hnn
      rcases hnn with hnn | hnn
      · exact fun h0 => h1.2 hnn (List.append_eq_nil.mp h0).1
      · exact fun h0 => h2.2 hnn (List.append_eq_nil.mp h0).2
  | alt a b iha ihb =>
    intro prev s c hc
    simp only [mtchGo, List.mem_append] at hc
    rcases hc with h | h
    · refine ⟨(iha prev s c h).1, ?_⟩
      intro hnn
      simp only [nonNull, Bool.and_eq_true] at hnn
      exact (iha prev s c h).2 hnn.1
    · refine ⟨(ihb prev s c h).1, ?_⟩
      intro hnn
      simp only [nonNull, Bool.and_eq_true] at hnn
      exact (ihb prev s c h).2 hnn.2
  | star a iha =>
    intro prev s c hc
    simp only [mtchGo, List.mem_append, List.mem_flatMap, List.mem_map,
      List.mem_filter, List.mem_singleton] at hc
    rcases hc with ⟨ca, ⟨hca, _⟩, cb, hcb, rfl⟩ | rfl
    · have h1 := hstep a prev s ca hca
      have h2 := hstep (.star a) (lastOr prev ca.consumed) ca.rest cb hcb
      refine ⟨?_, by simp [nonNull]⟩
      intro g hg ch hch
      simp only [List.mem_append] at hg ⊢
      rcases hg with hg | hg
      · exact Or.inl (h1.1 g hg ch hch)
      · exact Or.inr (h2.1 g hg ch hch)
    · simp [nonNull]
  | lazyStar a iha =>
    intro prev s c hc
    simp only [mtchGo, List.mem_cons, List.mem_flatMap, List.mem_map,
      List.mem_filter] at hc
    rcases hc with rfl | ⟨ca, ⟨hca, _⟩, cb, hcb, rfl⟩
    · simp [nonNull]
    · have h1 := hstep a prev s ca hca
      have h2 := hstep (.lazyStar a) (lastOr prev ca.consumed) ca.rest cb hcb
      refine ⟨?_, by simp [nonNull]⟩
      intro g hg ch hch
      simp only [List.mem_append] at hg ⊢
      rcases hg with hg | hg
      · exact Or.inl (h1.1 g hg ch hch)
      · exact Or.inr (h2.1 g hg ch hch)
  | opt a iha =>
    intro prev s c hc
    simp only [mtchGo, List.mem_append, List.mem_singleton] at hc
    rcases hc with h | rfl
    · exact ⟨(iha prev s c h).1, by simp [nonNull]⟩
    · simp [nonNull]
  | grp i a iha =>
    intro prev s c hc
    simp only [mtchGo, List.mem_map] at hc
    obtain ⟨c0, hc0, rfl⟩ := hc
    refine ⟨?_, ?_⟩
    · intro g hg ch hch
      simp only [List.mem_append, List.mem_singleton] at hg
      rcases hg with hg | rfl
      · exact (iha prev s c0 hc0).1 g hg ch hch
      · exact hch
    · intro hnn
      exact (iha prev s c0 hc0).2 hnn
  | wb =>
    intro prev s c hc
    by_cases h : isWordOpt prev != isWordOpt s.head?
    · simp [mtchGo, h] at hc; simp [hc, nonNull]
    · simp [mtchGo, h] at hc
  | eos =>
    intro prev s c hc
    by_cases h : s.isEmpty
    · simp [mtchGo, h] at hc; simp [hc, nonNull]
    · simp [mtchGo, h] at hc

/-- Captured characters come from the consumed characters, and a candidate
of a non-nullable regex consumes at least one character. -/
theorem mtch_caps_nonNull : ∀ (f : Nat) (re : RE) (prev : Option Char) (s : List Char),
    ∀ c ∈ mtch f re prev s,
      (∀ g ∈ c.caps, ∀ ch ∈ g.2, ch ∈ c.consumed) ∧
      (nonNull re = true → c.consumed ≠ []) := by
  intro f
  induction f with
  | zero =>
    intro re prev s c hc
    exact mtchGo_caps_nonNull _ (by intro re2 prev2 s2 c2 hc2; simp at hc2) re prev s c hc
  | succ n ih =>
    intro re prev s c hc
    exact mtchGo_caps_nonNull _ ih re prev s c hc

/-- The JS match at the current position: the highest-priority candidate. -/
def firstMatch (re : RE) (prev : Option Char) (s : List Char) : Option Cand :=
  (mtch (s.length + 8) re prev s).head?

theorem firstMatch_split (re : RE) (prev : Option Char) (s : List Char) (c : Cand)
    (h : firstMatch re prev s = some c) : c.consumed ++ c.rest = s := by
  have hmem : c ∈ mtch (s.length + 8) re prev s := by
    unfold firstMatch at h
    exact List.mem_of_mem_head? (Option.mem_def.mpr h)
  exact mtch_split _ re prev s c hmem

/-- Unanchored leftmost search with the character before the current position
tracked for \b; pre accumulates the characters skipped before the match.
Mirrors how a JS regex without the y flag searches from every position in
turn and returns the first (leftmost) match. -/
def searchGo (re : RE) (prev : Option Char) (pre : List Char) (s : List Char) :
    Option (List Char × Cand) :=
  match s with
  | [] => (firstMatch re prev []).map fun c => (pre, c)
  | ch :: t =>
    match firstMatch re prev (ch :: t) with
    | some c => some (pre, c)
    | none => searchGo re (some ch) (pre ++ [ch]) t

/-- Leftmost match of a regex in a whole string (JS String.prototype.match
with a non-global regex, or the first regex.exec). -/
def searchRE (re : RE) (s : List Char) : Option (List Char × Cand) :=
  searchGo re none [] s

/-- A successful search splits the input around the match. -/
theorem searchGo_split (re : RE) :
    ∀ (s : List Char) (prev : Option Char) (pre b : List Char) (c : Cand),
      searchGo re prev pre s = some (b, c) →
      ∃ b2, b = pre ++ b2 ∧ b2 ++ (c.consumed ++ c.rest) = s := by
  intro s
  induction s with
  | nil =>
    intro prev pre b c h
    unfold searchGo at h
    cases hm : firstMatch re prev [] with
    | none => simp [hm] at h
    | some c0 =>
      simp only [hm, Option.map_some] at h
      obtain ⟨rfl, rfl⟩ : pre = b ∧ c0 = c := by simpa [Prod.ext_iff] using h
      exact ⟨[], by simp, by simpa using firstMatch_split re prev [] c0 hm⟩
  | cons ch t ih =>
    intro prev pre b c h
    unfold searchGo at h
    cases hm : firstMatch re prev (ch :: t) with
    | some c0 =>
      simp only [hm] at h
      obtain ⟨rfl, rfl⟩ : pre = b ∧ c0 = c := by simpa [Prod.ext_iff] using h
      exact ⟨[], by simp, firstMatch_split re prev (ch :: t) c0 hm⟩
    | none =>
      simp only [hm] at h
      obtain ⟨b2, hb, hsplit⟩ := ih (some ch) (pre ++ [ch]) b c h
      exact ⟨ch :: b2, by simpa using hb, by simpa using hsplit⟩

/-- A successful top-level search splits the whole input around the match. -/
theorem searchRE_split (re : RE) (s b : List Char) (c : Cand)
    (h : searchRE re s = some (b, c)) : b ++ (c.consumed ++ c.rest) = s := by
  obtain ⟨b2, hb, hsplit⟩ := searchGo_split re s none [] b c h
  simpa [hb] using hsplit

/-- Retrieve a capture group from a candidate. -/
def cap (c : Cand) (i : Nat) : List Char :=
  ((c.caps.find? fun g => g.1 == i).map fun g => g.2).getD []

/-- All matches of a global regex (JS String.prototype.matchAll semantics:
repeated exec, bumping the position by one after an empty match).  Returns
(index, matched characters, captures) triples.  The fuel bounds iterations;
input-length + 1 suffices because every step advances the position. -/
def matchAllGo (re : RE) : Nat → Option Char → Nat → List Char →
    List (Nat × List Char × List (Nat × List Char))
  | 0, _, _, _ => []
  | fuel + 1, prev, pos, s =>
    match searchGo re prev [] s with
    | none => []
    | some (b, c) =>
      let idx := pos + b.length
      if c.consumed.isEmpty then
        match c.rest with
        | [] => [(idx, c.consumed, c.caps)]
        | ch :: t => (idx, c.consumed, c.caps) :: matchAllGo re fuel (some ch) (idx + 1) t
      else
        (idx, c.consumed, c.caps) ::
          matchAllGo re fuel (lastOr prev (b ++ c.consumed)) (idx + c.consumed.length) c.rest

def matchAll (re : RE) (s : List Char) : List (Nat × List Char × List (Nat × List Char)) :=
  matchAllGo re (s.length + 1) none 0 s

/-! ## Regex constructors mirroring the source's regex literals -/

def lit (c : Char) : RE := .cls fun x => x == c

/-- Case-insensitive literal (the i flag); the source only applies it to
ASCII letters. -/
def litCI (c : Char) : RE := .cls fun x => upperChar x == upperChar c

def strLits (s : String) : RE := s.data.foldr (fun c r => .seq (lit c) r) .eps

def strCI (s : String) : RE := s.data.foldr (fun c r => .seq (litCI c) r) .eps

def plus (r : RE) : RE := .seq r (.star r)

def lazyPlus (r : RE) : RE := .seq r (.lazyStar r)

/-- Greedy bounded repetition (the {0,n} quantifier). -/
def upTo : Nat → RE → RE
  | 0, _ => .eps
  | n + 1, r => .opt (.seq r (upTo n r))

def altList : List RE → RE
  | [] => .cls fun _ => false
  | [r] => r
  | r :: rs => .alt r (altList rs)

def sp : RE := .cls isJsSpace
def dotAny : RE := .cls isDotChar
def digit : RE := .cls isDigitChar
def upper : RE := .cls isUpperAscii
def letterCI : RE := .cls isAsciiLetter
def digitDot : RE := .cls fun c => isDigitChar c || c == '.'
def alnumDotCI : RE := .cls fun c => isAsciiLetter c || isDigitChar c || c == '.'
def notRParen : RE := .cls fun c => !(c == ')')

/-- The dash class [-–—] of the heading patterns (hyphen, en dash, em dash). -/
def dashCls : RE := .cls fun c => c == '-' || c == '–' || c == '—'

def ivxCI : RE := .cls fun c =>
  c == 'I' || c == 'V' || c == 'X' || c == 'i' || c == 'v' || c == 'x'

/-! ## String helpers used by the source -/

/-- JS String.prototype.trim. -/
def jsTrim (s : List Char) : List Char :=
  ((s.dropWhile isJsSpace).reverse.dropWhile isJsSpace).reverse

/-- The dash normalization in extractClause and extractXrefs:
line.replace(/[‑–—]/g, unicode U+2011, U+2013, U+2014 all become a hyphen. -/
def normalizeDashChar (c : Char) : Char :=
  if c == '‑' || c == '–' || c == '—' then '-' else c

def normalizeDashes (s : List Char) : List Char := s.map normalizeDashChar

/-- Does s begin with kw? -/
def leadsWith : List Char → List Char → Bool
  | [], _ => true
  | _ :: _, [] => false
  | k :: ks, c :: cs => k == c && leadsWith ks cs

/-- JS String.prototype.includes. -/
def containsSub : List Char → List Char → Bool
  | [], sub => leadsWith sub []
  | c :: t, sub => leadsWith sub (c :: t) || containsSub t sub

/-- JS Array.prototype.slice-style list slice between two indices. -/
def sliceList (s : List Char) (a b : Nat) : List Char := (s.drop a).take (b - a)

/-! ## HeadingClassifier (parseHeading in fpf.spec-model.v1.js) -/

/-- The structural-id core LETTER.DIGITS[.DIGITS...][:DIGITS[.DIGITS...]] of
heading patterns 1 and 4: [A-Z]\.[\d.]+(?::[.\d]+)? . -/
def structuralIdRE : RE :=
  .seq upper (.seq (lit '.') (.seq (plus digitDot)
    (.opt (.seq (lit ':') (plus digitDot)))))

/-- Heading pattern 1: ^([A-Z]\.[\d.]+(?::[.\d]+)?)\s*[-–—]\s*(.+)$ . -/
def headingPat1 : RE :=
  .seq (.grp 1 structuralIdRE) (.seq (.star sp) (.seq dashCls
    (.seq (.star sp) (.seq (.grp 2 (plus dotAny)) .eos))))

/-- Heading pattern 2: ^Part\s+([A-Z])\s*[-–—]\s*(.+)$ with the i flag. -/
def headingPat2 : RE :=
  .seq (strCI "Part") (.seq (plus sp) (.seq (.grp 1 letterCI)
    (.seq (.star sp) (.seq dashCls (.seq (.star sp)
      (.seq (.grp 2 (plus dotAny)) .eos))))))

/-- Heading pattern 3:
^(?:\*{0,2})Cluster\s+([A-Z](?:\.[IVX]+)?)\s*[-–—]\s*(.+?)(?:\*{0,2})$ with
the i flag. -/
def headingPat3 : RE :=
  .seq (upTo 2 (lit '*')) (.seq (strCI "Cluster") (.seq (plus sp)
    (.seq (.grp 1 (.seq letterCI (.opt (.seq (lit '.') (plus ivxCI)))))
      (.seq (.star sp) (.seq dashCls (.seq (.star sp)
        (.seq (.grp 2 (lazyPlus dotAny)) (.seq (upTo 2 (lit '*')) .eos))))))))

/-- Heading pattern 4: ^([A-Z]\.[\d.]+(?::[.\d]+)?)\s*$ . -/
def headingPat4 : RE :=
  .seq (.grp 1 structuralIdRE) (.seq (.star sp) .eos)

/-- The replace of /^#+\s*/ with the empty string: strip the leading run of
number signs (if any) and the whitespace after it. -/
def stripLeadHash (s : List Char) : List Char :=
  match s with
  | '#' :: _ => (s.dropWhile fun c => c == '#').dropWhile isJsSpace
  | _ => s

structure HeadingRef where
  ref : Option String
  title : String
deriving DecidableEq, Repr

/-- parseHeading: classify one heading line into an optional structural
reference and a title, trying the four patterns in source order. -/
def parseHeading (heading : String) : HeadingRef :=
  let text := jsTrim (stripLeadHash heading.data)
  match firstMatch headingPat1 none text with
  | some c => ⟨some (String.mk (cap c 1)), String.mk (jsTrim (cap c 2))⟩
  | none =>
  match firstMatch headingPat2 none text with
  | some c => ⟨some ("Part-" ++ String.mk (upperList (cap c 1))),
      String.mk (jsTrim (cap c 2))⟩
  | none =>
  match firstMatch headingPat3 none text with
  | some c => ⟨some ("Cluster-" ++ String.mk (cap c 1)), String.mk (jsTrim (cap c 2))⟩
  | none =>
  match firstMatch headingPat4 none text with
  | some c => ⟨some (String.mk (cap c 1)), String.mk (cap c 1)⟩
  | none => ⟨none, String.mk text⟩

/-- The heading-line test of the parser loop: ^(#{1,6})\s+(.+)$ . -/
def headingLineRE : RE :=
  .seq (.grp 1 (.seq (lit '#') (upTo 5 (lit '#'))))
    (.seq (plus sp) (.seq (.grp 2 (plus dotAny)) .eos))

/-- line.match of the heading-line regex: the heading level (length of the
number-sign run) and the raw heading text capture. -/
def headingMatch (line : String) : Option (Nat × List Char) :=
  (firstMatch headingLineRE none line.data).map fun c => ((cap c 1).length, cap c 2)

/-! ## ClauseExtractor (extractClause in fpf.spec-model.v1.js) -/

/-- The clause-marker regex, with the i flag:
\*?\*?CC-([A-Z][A-Z0-9.]*-\d+)(?:\s*\([^)]*\))?\*?\*?\.?\s*[|]?\s*(.+) . -/
def clauseRE : RE :=
  .seq (.opt (lit '*')) (.seq (.opt (lit '*')) (.seq (strCI "CC-")
    (.seq (.grp 1 (.seq letterCI (.seq (.star alnumDotCI) (.seq (lit '-') (plus digit)))))
      (.seq (.opt (.seq (.star sp) (.seq (lit '(') (.seq (.star notRParen) (lit ')')))))
        (.seq (.opt (lit '*')) (.seq (.opt (lit '*')) (.seq (.opt (lit '.'))
          (.seq (.star sp) (.seq (.opt (lit '|')) (.seq (.star sp)
            (.grp 2 (plus dotAny))))))))))))

/-- The modality alternatives, in the source's alternation order (negative
two-word forms before their one-word stems). -/
def modalityKeywords : List (List Char) :=
  ["MUST NOT".data, "MUST".data, "SHALL NOT".data, "SHALL".data,
   "SHOULD NOT".data, "SHOULD".data, "MAY".data]

/-- Does one modality keyword match at the current position with word
boundaries on both sides?  Every keyword begins and ends with an ASCII
letter, so the \b assertions reduce to the neighbouring character not being
a word character. -/
def kwHere (prev : Option Char) (s : List Char) (kw : List Char) : Bool :=
  !isWordOpt prev && leadsWith kw s && !isWordOpt (s.drop kw.length).head?

/-- The first alternative (in source order) matching at this position. -/
def tryKwsAt (prev : Option Char) (s : List Char) : Option (List Char) :=
  modalityKeywords.find? (kwHere prev s)

/-- The leftmost modality-keyword occurrence:
text.match of \b(MUST NOT|MUST|SHALL NOT|SHALL|SHOULD NOT|SHOULD|MAY)\b,
transcribed directly (the alternatives are plain words, so the JS search is
exactly a left-to-right scan trying the alternatives in order at each
position). -/
def findModality (prev : Option Char) (s : List Char) : Option (List Char) :=
  match s with
  | [] => tryKwsAt prev []
  | c :: t =>
    match tryKwsAt prev (c :: t) with
    | some kw => some kw
    | none => findModality (some c) t

/-- The replace of /^\|?\s*/ : an optional leading pipe, then whitespace. -/
def stripLeadPipe (s : List Char) : List Char :=
  match s with
  | '|' :: t => t.dropWhile isJsSpace
  | _ => s.dropWhile isJsSpace

/-- The replace of /\s*\|?\s*$/ : the leftmost match is the longest suffix of
shape whitespace, optional pipe, whitespace; strip it from the right. -/
def stripTailPipe (s : List Char) : List Char :=
  let r := s.reverse.dropWhile isJsSpace
  let r2 := match r with
    | '|' :: t => t.dropWhile isJsSpace
    | _ => r
  r2.reverse

structure Clause0 where
  code : String
  text : String
  modality : Option String
  lineNum : Nat
deriving DecidableEq, Repr

/-- extractClause: detect and decode one conformance clause on a line. -/
def extractClause (line : String) (lineNum : Nat) : Option Clause0 :=
  let normalized := normalizeDashes line.data
  match searchRE clauseRE normalized with
  | some (_, c) =>
    let code := "CC-" ++ String.mk (cap c 1)
    let t0 := jsTrim (cap c 2)
    let t1 := jsTrim (stripTailPipe (stripLeadPipe t0))
    some ⟨code, String.mk t1, (findModality none t1).map String.mk, lineNum⟩
  | none => none

/-! ## XrefExtractor (extractXrefs in fpf.spec-model.v1.js) -/

/-- Pass 1 pattern /CC-[A-Z][A-Z0-9.]*-\d+/gi (no capture needed: the source
uses the whole match). -/
def ccXrefRE : RE :=
  .seq (strCI "CC-") (.seq letterCI (.seq (.star alnumDotCI)
    (.seq (lit '-') (plus digit))))

/-- Pass 2 pattern /\b([A-Z])\.(\d+(?:\.\d+)*(?::\d+(?:\.\d+)*)?)\b/g ; the
source only uses the whole match, so the capturing groups (which do not
affect matching) are omitted. -/
def sectionXrefRE : RE :=
  .seq .wb (.seq upper (.seq (lit '.') (.seq (plus digit)
    (.seq (.star (.seq (lit '.') (plus digit)))
      (.seq (.opt (.seq (lit ':') (.seq (plus digit)
        (.star (.seq (lit '.') (plus digit)))))) .wb)))))

/-- Pass 3 pattern /\bPart\s+([A-Z])\b/gi . -/
def partXrefRE : RE :=
  .seq .wb (.seq (strCI "Part") (.seq (plus sp) (.seq (.grp 1 letterCI) .wb)))

structure Xref0 where
  targetRef : String
  targetType : String
  context : String
deriving DecidableEq, Repr

/-- extractXrefs: three passes over the dash-normalized line, sharing one
seen-set keyed by the emitted reference, each match yielding a context
snippet sliced from the original (un-normalized) line. -/
def extractXrefs (text : List Char) : List Xref0 :=
  let normalized := normalizeDashes text
  let n := text.length
  let step1 := (matchAll ccXrefRE normalized).foldl
    (fun (acc : List String × List Xref0) m =>
      let ref := String.mk (upperList m.2.1)
      if acc.1.contains ref then acc
      else
        let start := m.1 - 30
        let stop := min n (m.1 + m.2.1.length + 30)
        (ref :: acc.1,
         acc.2 ++ [⟨ref, "clause", String.mk (jsTrim (sliceList text start stop))⟩]))
    ([], [])
  let step2 := (matchAll sectionXrefRE normalized).foldl
    (fun (acc : List String × List Xref0) m =>
      let ref := String.mk m.2.1
      if acc.1.contains ref then acc
      else
        let start := m.1 - 30
        let stop := min n (m.1 + m.2.1.length + 30)
        (ref :: acc.1,
         acc.2 ++ [⟨ref, "section", String.mk (jsTrim (sliceList text start stop))⟩]))
    step1
  let step3 := (matchAll partXrefRE normalized).foldl
    (fun (acc : List String × List Xref0) m =>
      let ref := "Part-" ++ String.mk (upperList (cap ⟨m.2.1, m.2.2, []⟩ 1))
      if acc.1.contains ref then acc
      else
        let start := m.1 - 20
        let stop := min n (m.1 + 30)
        (ref :: acc.1,
         acc.2 ++ [⟨ref, "section", String.mk (jsTrim (sliceList text start stop))⟩]))
    step2
  step3.2

/-- The relation keywords of the xref gate, in source order. -/
def relationKeywords : List String :=
  ["Builds on", "Prerequisite", "Coordinates", "Constrains", "Used by",
   "Refines", "Informs"]

/-- The gate sub-pattern /\b[A-Z]\.\d+/ . -/
def bareIdRE : RE :=
  .seq .wb (.seq upper (.seq (lit '.') (plus digit)))

/-- The xref gate: the line contains a dot AND (one of the relation keywords
OR a token of the bare structural-id shape). -/
def xrefGate (line : String) : Bool :=
  containsSub line.data ".".data &&
  (relationKeywords.any (fun kw => containsSub line.data kw.data) ||
   (searchRE bareIdRE line.data).isSome)

/-! ## Version extraction (extractVersion in fpf.spec-model.v1.js) -/

def monthNames : List String :=
  ["January", "February", "March", "April", "May", "June", "July",
   "August", "September", "October", "November", "December"]

/-- /\b(January|...|December)\s+(\d{4})\b/i . -/
def monthRE : RE :=
  .seq .wb (.seq (.grp 1 (altList (monthNames.map strCI)))
    (.seq (plus sp) (.seq (.grp 2 (.seq digit (.seq digit (.seq digit digit)))) .wb)))

/-- /\b(?:Version|v)\s*(\d+(?:\.\d+)+)/i . -/
def versionRE : RE :=
  .seq .wb (.seq (.alt (strCI "Version") (litCI 'v'))
    (.seq (.star sp) (.grp 1 (.seq (plus digit) (plus (.seq (lit '.') (plus digit)))))))

/-- extractVersion: a month-name + year token first, else an explicit
version token, else none. -/
def extractVersion (md : String) : Option String :=
  match searchRE monthRE md.data with
  | some (_, c) => some (String.mk (cap c 1) ++ " " ++ String.mk (cap c 2))
  | none =>
    match searchRE versionRE md.data with
    | some (_, c) => some (String.mk (cap c 1))
    | none => none

/-! ## Hasher (sha256 in fpf.spec-model.v1.js): SHA-256 per FIPS 180-4 over
the UTF-8 bytes, rendered as 64 lowercase hex characters, exactly what
node:crypto's createHash('sha256').update(str, 'utf8').digest('hex')
computes.  Words are Nats reduced mod 2^32. -/

def rotr32 (n w : Nat) : Nat := ((w >>> n) ||| (w <<< (32 - n))) % 2 ^ 32

def shaCh (x y z : Nat) : Nat := (x &&& y) ^^^ ((x ^^^ 0xffffffff) &&& z)

def shaMaj (x y z : Nat) : Nat := (x &&& y) ^^^ (x &&& z) ^^^ (y &&& z)

def bigSigma0 (x : Nat) : Nat := rotr32 2 x ^^^ rotr32 13 x ^^^ rotr32 22 x

def bigSigma1 (x : Nat) : Nat := rotr32 6 x ^^^ rotr32 11 x ^^^ rotr32 25 x

def smallSigma0 (x : Nat) : Nat := rotr32 7 x ^^^ rotr32 18 x ^^^ (x >>> 3)

def smallSigma1 (x : Nat) : Nat := rotr32 17 x ^^^ rotr32 19 x ^^^ (x >>> 10)

def shaK : List Nat :=
  [0x428A2F98, 0x71374491, 0xB5C0FBCF, 0xE9B5DBA5, 0x3956C25B, 0x59F111F1,
   0x923F82A4, 0xAB1C5ED5, 0xD807AA98, 0x12835B01, 0x243185BE, 0x550C7DC3,
   0x72BE5D74, 0x80DEB1FE, 0x9BDC06A7, 0xC19BF174, 0xE49B69C1, 0xEFBE4786,
   0x0FC19DC6, 0x240CA1CC, 0x2DE92C6F, 0x4A7484AA, 0x5CB0A9DC, 0x76F988DA,
   0x983E5152, 0xA831C66D, 0xB00327C8, 0xBF597FC7, 0xC6E00BF3, 0xD5A79147,
   0x06CA6351, 0x14292967, 0x27B70A85, 0x2E1B2138, 0x4D2C6DFC, 0x53380D13,
   0x650A7354, 0x766A0ABB, 0x81C2C92E, 0x92722C85, 0xA2BFE8A1, 0xA81A664B,
   0xC24B8B70, 0xC76C51A3, 0xD192E819, 0xD6990624, 0xF40E3585, 0x106AA070,
   0x19A4C116, 0x1E376C08, 0x2748774C, 0x34B0BCB5, 0x391C0CB3, 0x4ED8AA4A,
   0x5B9CCA4F, 0x682E6FF3, 0x748F82EE, 0x78A5636F, 0x84C87814, 0x8CC70208,
   0x90BEFFFA, 0xA4506CEB, 0xBEF9A3F7, 0xC67178F2]

structure Hash8 where
  a0 : Nat
  a1 : Nat
  a2 : Nat
  a3 : Nat
  a4 : Nat
  a5 : Nat
  a6 : Nat
  a7 : Nat

def sha256InitH : Hash8 :=
  ⟨0x6A09E667, 0xBB67AE85, 0x3C6EF372, 0xA54FF53A,
   0x510E527F, 0x9B05688C, 0x1F83D9AB, 0x5BE0CD19⟩

/-- Split the padded byte list into 64-byte blocks. -/
def chunk64 (l : List Nat) : List (List Nat) :=
  match l with
  | [] => []
  | x :: rest => (x :: rest).take 64 :: chunk64 ((x :: rest).drop 64)
termination_by l.length
decreasing_by
  simp only [List.length_drop, List.length_cons]
  omega

/-- The 16 initial big-endian message-schedule words of one block. -/
def wordsOfBlock (b : List Nat) : List Nat :=
  (List.range 16).map fun i =>
    (b.getD (4 * i) 0) <<< 24 + (b.getD (4 * i + 1) 0) <<< 16 +
    (b.getD (4 * i + 2) 0) <<< 8 + b.getD (4 * i + 3) 0

/-- Extend the message schedule from 16 to 64 words. -/
def buildW (w : List Nat) : List Nat :=
  (List.range 48).foldl (fun acc _ =>
    let n := acc.length
    acc ++ [(smallSigma1 (acc.getD (n - 2) 0) + acc.getD (n - 7) 0 +
             smallSigma0 (acc.getD (n - 15) 0) + acc.getD (n - 16) 0) % 2 ^ 32]) w

def compressBlock (H : Hash8) (block : List Nat) : Hash8 :=
  let w := buildW (wordsOfBlock block)
  let z := (shaK.zip w).foldl
    (fun (s : Nat × Nat × Nat × Nat × Nat × Nat × Nat × Nat) kw =>
      let (a, b, c, d, e, f, g, h) := s
      let t1 := (h + bigSigma1 e + shaCh e f g + kw.1 + kw.2) % 2 ^ 32
      let t2 := (bigSigma0 a + shaMaj a b c) % 2 ^ 32
      ((t1 + t2) % 2 ^ 32, a, b, c, (d + t1) % 2 ^ 32, e, f, g))
    (H.a0, H.a1, H.a2, H.a3, H.a4, H.a5, H.a6, H.a7)
  ⟨(H.a0 + z.1) % 2 ^ 32, (H.a1 + z.2.1) % 2 ^ 32, (H.a2 + z.2.2.1) % 2 ^ 32,
   (H.a3 + z.2.2.2.1) % 2 ^ 32, (H.a4 + z.2.2.2.2.1) % 2 ^ 32,
   (H.a5 + z.2.2.2.2.2.1) % 2 ^ 32, (H.a6 + z.2.2.2.2.2.2.1) % 2 ^ 32,
   (H.a7 + z.2.2.2.2.2.2.2) % 2 ^ 32⟩

def bytesOfNat64BE (n : Nat) : List Nat :=
  [(n >>> 56) % 256, (n >>> 48) % 256, (n >>> 40) % 256, (n >>> 32) % 256,
   (n >>> 24) % 256, (n >>> 16) % 256, (n >>> 8) % 256, n % 256]

def wordBytesBE (w : Nat) : List Nat :=
  [(w >>> 24) % 256, (w >>> 16) % 256, (w >>> 8) % 256, w % 256]

/-- SHA-256 of a byte sequence: pad, compress each block, serialize. -/
def sha256Bytes (msg : List Nat) : List Nat :=
  let L := msg.length
  let padded := msg ++ 0x80 :: (List.replicate ((119 - L % 64) % 64) 0 ++
    bytesOfNat64BE (8 * L))
  let Hf := (chunk64 padded).foldl compressBlock sha256InitH
  wordBytesBE Hf.a0 ++ wordBytesBE Hf.a1 ++ wordBytesBE Hf.a2 ++ wordBytesBE Hf.a3 ++
  wordBytesBE Hf.a4 ++ wordBytesBE Hf.a5 ++ wordBytesBE Hf.a6 ++ wordBytesBE Hf.a7

def hexDigitChar (n : Nat) : Char := "0123456789abcdef".data.getD n '0'

def hexOfByte (b : Nat) : List Char := [hexDigitChar (b / 16), hexDigitChar (b % 16)]

/-- The 32-byte digest of a string's UTF-8 encoding. -/
def sha256Digest (s : String) : List Nat :=
  sha256Bytes (s.toUTF8.toList.map UInt8.toNat)

/-- sha256: the content fingerprint used throughout the source. -/
def sha256 (s : String) : String :=
  String.mk ((sha256Digest s).flatMap hexOfByte)

/-! ## DocumentParser (parseFpfSpecMarkdown in fpf.spec-model.v1.js) -/

structure PSection where
  ref : String
  title : String
  level : Nat
  ord : Nat
  parent_ord : Option Nat
  text : Option String
  line_start : Nat
  line_end : Option Nat
deriving DecidableEq, Repr

structure PClause where
  code : String
  text : String
  modality : Option String
  lineNum : Nat
  section_ord : Option Nat
deriving DecidableEq, Repr

structure PXref where
  source_ord : Option Nat
  source_line : Nat
  targetRef : String
  targetType : String
  context : String
deriving DecidableEq, Repr

structure PDoc where
  ref : String
  title : String
  version : Option String
  raw_hash : String
deriving DecidableEq, Repr

structure ParseResult where
  doc : PDoc
  sections : List PSection
  clauses : List PClause
  xrefs : List PXref
deriving DecidableEq, Repr

/-- The parser's loop state.  The JS currentSection variable is always the
most recently pushed section, so it is represented by the last element of
sections; the JS level-tracking stack grows at the array end, represented
here with the top at the list head. -/
structure PState where
  sections : List PSection
  clauses : List PClause
  xrefs : List PXref
  stack : List (Nat × Nat)
  ord : Nat
  content : List String
deriving DecidableEq, Repr

/-- Update the last element of a list in place (the JS mutation of the
already-pushed currentSection object). -/
def updateLast (f : PSection → PSection) : List PSection → List PSection
  | [] => []
  | [s] => [f s]
  | s :: rest => s :: updateLast f rest

/-- Finalize the pending section body: only when a section is open and at
least one content line was accumulated. -/
def finalizeSection (st : PState) (endLine : Nat) : PState :=
  if st.sections.isEmpty || st.content.isEmpty then st
  else
    { st with sections := updateLast (fun s =>
        { s with
          text := some (String.mk (jsTrim (String.intercalate "\n" st.content).data)),
          line_end := some endLine }) st.sections }

/-- The cross-references one content line contributes: none unless the line
passes the heuristic gate, otherwise the extracted references tagged with
the current section ordinal and the line number. -/
def lineXrefs (line : String) (ord : Option Nat) (lineNum : Nat) : List PXref :=
  if xrefGate line then
    (extractXrefs line.data).map fun x =>
      ⟨ord, lineNum, x.targetRef, x.targetType, x.context⟩
  else []

/-- Process one line (idx is zero-based; lineNum = idx + 1). -/
def stepLine (doc_ref : String) (st : PState) (idx : Nat) (line : String) : PState :=
  let lineNum := idx + 1
  match headingMatch line with
  | some (level, _) =>
    let st1 := finalizeSection st (lineNum - 1)
    let hr := parseHeading line
    let effectiveRef := hr.ref.getD (doc_ref ++ ":L" ++ toString lineNum)
    let stack1 := st1.stack.dropWhile fun e => level ≤ e.1
    let parentOrd := stack1.head?.map fun e => e.2
    let newOrd := st1.ord + 1
    let sec : PSection := ⟨effectiveRef, hr.title, level, newOrd, parentOrd, none, lineNum, none⟩
    { st1 with
      sections := st1.sections ++ [sec]
      stack := (level, newOrd) :: stack1
      ord := newOrd
      content := [] }
  | none =>
    let st1 := { st with content := st.content ++ [line] }
    let curOrd := st1.sections.getLast?.map fun s => s.ord
    let st2 : PState := match extractClause line lineNum with
      | some c =>
        { st1 with clauses := st1.clauses ++ [⟨c.code, c.text, c.modality, c.lineNum, curOrd⟩] }
      | none => st1
    { st2 with xrefs := st2.xrefs ++ lineXrefs line curOrd lineNum }

/-- JS String.prototype.split('\n') on the character list. -/
def splitNlChars : List Char → List (List Char)
  | [] => [[]]
  | c :: t =>
    let r := splitNlChars t
    if c == '\n' then [] :: r
    else
      match r with
      | [] => [[c]]
      | h :: rest => (c :: h) :: rest

/-- md.split('\n'): the ordered line sequence (an empty input yields one
empty line, and a trailing newline yields a final empty line, as in JS). -/
def splitNl (md : String) : List String := (splitNlChars md.data).map String.mk

/-- parseFpfSpecMarkdown: single pass over the lines, producing the document
summary and the three ordered collections keyed by per-parse ordinals. -/
def parseFpfSpecMarkdown (md : String) (doc_ref title : String)
    (version : Option String) : ParseResult :=
  let lines := splitNl md
  let init : PState := ⟨[], [], [], [], 0, []⟩
  let st := lines.enum.foldl (fun st p => stepLine doc_ref st p.1 p.2) init
  let st2 := finalizeSection st lines.length
  { doc :=
      ⟨doc_ref, title,
       (match version with | some v => some v | none => extractVersion md),
       sha256 md⟩
    sections := st2.sections
    clauses := st2.clauses
    xrefs := st2.xrefs }

/-! ## IngestionPipeline (ingestFpfSpecMarkdown in fpf.spec-model.v1.js)

The persistence boundary is a relational store addressed through single
parameterized statements (the query function built over bun:sqlite in the
tests).  We model the four tables the pipeline writes, with per-table rowid
counters as in SQLite.  The source wraps nothing in a transaction: it issues
its statements one by one, so the model executes statements one by one
against an injected failure oracle; when the oracle fails statement k, the
effects of statements 0..k-1 remain applied and the caller receives the
error (the ingested_at timestamp column is not modeled; no claim mentions
it). -/

structure DocRow where
  id : Nat
  ref : String
  title : String
  version : Option String
  raw_hash : String
deriving DecidableEq, Repr

structure SectionRow where
  id : Nat
  doc_id : Nat
  ref : String
  title : String
  level : Nat
  ord : Nat
  parent_id : Option Nat
  text : Option String
  line_start : Nat
  line_end : Option Nat
deriving DecidableEq, Repr

structure ClauseRow where
  id : Nat
  doc_id : Nat
  section_id : Option Nat
  code : String
  text : String
  modality : Option String
  line_num : Nat
deriving DecidableEq, Repr

structure XrefRow where
  id : Nat
  doc_id : Nat
  source_id : Option Nat
  source_line : Nat
  target_ref : String
  target_type : String
  context : String
deriving DecidableEq, Repr

structure Store where
  docs : List DocRow
  sections : List SectionRow
  clauses : List ClauseRow
  xrefs : List XrefRow
  nextDocId : Nat
  nextSectionId : Nat
  nextClauseId : Nat
  nextXrefId : Nat
deriving DecidableEq, Repr

def Store.empty : Store := ⟨[], [], [], [], 1, 1, 1, 1⟩

structure IngestSummary where
  doc_id : Nat
  sections : Nat
  clauses : Nat
  xrefs : Nat
deriving DecidableEq, Repr

/-- Result of an ingestion run: the committed store and the summary, or, on
a failed statement, the store as left behind (no rollback: the source opens
no transaction) together with the index of the failed statement. -/
inductive IngestResult where
  | ok : Store → IngestSummary → IngestResult
  | error : Store → Nat → IngestResult
deriving DecidableEq, Repr

/-- The incrementally built ordinal-to-persisted-id map (the JS ordToId
Map); ordinals are unique per parse, so an association list suffices. -/
def lookupOrd (m : List (Nat × Nat)) (p : Nat) : Option Nat :=
  (m.find? fun e => e.1 == p).map fun e => e.2

/-- Translate an optional parse ordinal through the map, with the JS
truthiness test (ordinal 0 would be falsy; parse ordinals start at 1). -/
def translateOrd (m : List (Nat × Nat)) : Option Nat → Option Nat
  | none => none
  | some p => if p == 0 then none else lookupOrd m p

/-- Insert the parsed sections in ordinal order, extending the map as each
insert completes. -/
def insertSections (fail : Nat → Bool) (docId : Nat) :
    List PSection → Store → Nat → List (Nat × Nat) →
    Except (Store × Nat) (Store × Nat × List (Nat × Nat))
  | [], st, ctr, m => .ok (st, ctr, m)
  | sec :: rest, st, ctr, m =>
    if fail ctr then .error (st, ctr)
    else
      let row : SectionRow := ⟨st.nextSectionId, docId, sec.ref, sec.title, sec.level,
        sec.ord, translateOrd m sec.parent_ord, sec.text, sec.line_start, sec.line_end⟩
      insertSections fail docId rest
        { st with sections := st.sections ++ [row], nextSectionId := st.nextSectionId + 1 }
        (ctr + 1) (m ++ [(sec.ord, st.nextSectionId)])

def insertClauses (fail : Nat → Bool) (docId : Nat) (m : List (Nat × Nat)) :
    List PClause → Store → Nat → Except (Store × Nat) (Store × Nat)
  | [], st, ctr => .ok (st, ctr)
  | cl :: rest, st, ctr =>
    if fail ctr then .error (st, ctr)
    else
      let row : ClauseRow := ⟨st.nextClauseId, docId, translateOrd m cl.section_ord,
        cl.code, cl.text, cl.modality, cl.lineNum⟩
      insertClauses fail docId m rest
        { st with clauses := st.clauses ++ [row], nextClauseId := st.nextClauseId + 1 }
        (ctr + 1)

def insertXrefs (fail : Nat → Bool) (docId : Nat) (m : List (Nat × Nat)) :
    List PXref → Store → Nat → Except (Store × Nat) (Store × Nat)
  | [], st, ctr => .ok (st, ctr)
  | x :: rest, st, ctr =>
    if fail ctr then .error (st, ctr)
    else
      let row : XrefRow := ⟨st.nextXrefId, docId, translateOrd m x.source_ord,
        x.source_line, x.targetRef, x.targetType, x.context⟩
      insertXrefs fail docId m rest
        { st with xrefs := st.xrefs ++ [row], nextXrefId := st.nextXrefId + 1 }
        (ctr + 1)

/-- Steps 5-7 of the pipeline: sections, then clauses, then xrefs. -/
def insertAll (fail : Nat → Bool) (docId : Nat) (parsed : ParseResult)
    (st : Store) (ctr : Nat) : IngestResult :=
  match insertSections fail docId parsed.sections st ctr [] with
  | .error (st1, c) => .error st1 c
  | .ok (st1, c1, m) =>
    match insertClauses fail docId m parsed.clauses st1 c1 with
    | .error (st2, c) => .error st2 c
    | .ok (st2, c2) =>
      match insertXrefs fail docId m parsed.xrefs st2 c2 with
      | .error (st3, c) => .error st3 c
      | .ok (st3, _) =>
        .ok st3 ⟨docId, parsed.sections.length, parsed.clauses.length, parsed.xrefs.length⟩

/-- ingestFpfSpecMarkdown: parse, look up the document by external
reference, update-and-cascade-delete or insert, then insert the three
collections, issuing one statement at a time against the boundary. -/
def ingestFpfSpecMarkdown (fail : Nat → Bool) (st : Store)
    (doc_ref title md : String) (version : Option String) : IngestResult :=
  let parsed := parseFpfSpecMarkdown md doc_ref title version
  if fail 0 then .error st 0
  else
    match st.docs.find? fun d => d.ref == doc_ref with
    | some d =>
      if fail 1 then .error st 1
      else
        let docId := d.id
        let upd : DocRow → DocRow := fun r =>
          if r.id == docId then
            { r with
              title := parsed.doc.title
              version := parsed.doc.version
              raw_hash := parsed.doc.raw_hash }
          else r
        let st1 := { st with docs := st.docs.map upd }
        if fail 2 then .error st1 2
        else
          let st2 := { st1 with xrefs := st1.xrefs.filter fun r => !(r.doc_id == docId) }
          if fail 3 then .error st2 3
          else
            let st3 := { st2 with clauses := st2.clauses.filter fun r => !(r.doc_id == docId) }
            if fail 4 then .error st3 4
            else
              let st4 := { st3 with sections := st3.sections.filter fun r => !(r.doc_id == docId) }
              insertAll fail docId parsed st4 5
    | none =>
      if fail 1 then .error st 1
      else
        let docId := st.nextDocId
        let st1 := { st with
          docs := st.docs ++ [⟨docId, parsed.doc.ref, parsed.doc.title,
            parsed.doc.version, parsed.doc.raw_hash⟩]
          nextDocId := docId + 1 }
        insertAll fail docId parsed st1 2

/-- A boundary on which no statement fails. -/
def noFail : Nat → Bool := fun _ => false

/-- The committed store after an ingestion run (on the no-failure boundary
the run always succeeds; on failure the left-behind store is returned). -/
def storeAfter (r : IngestResult) : Store :=
  match r with
  | .ok st _ => st
  | .error st _ => st

/-! ## AutoLinkText (client/src/components/pattern-link.tsx)

The component scans its text with /\b([A-G])\.(\d+(?:\.\d+)*)\b/g, emitting
the plain slice before each match and a PatternLink for the match (whose
rendered text is the matched pattern id), then the remaining slice. -/

def autoLinkRE : RE :=
  .seq .wb (.seq (.grp 1 (.cls fun c => 65 ≤ c.toNat && c.toNat ≤ 71))
    (.seq (lit '.') (.seq (.grp 2 (.seq (plus digit)
      (.star (.seq (lit '.') (plus digit))))) .wb)))

inductive Seg where
  | plain : String → Seg
  | link : String → Seg
deriving DecidableEq, Repr

/-- The text a segment renders: a plain run renders itself; a PatternLink
renders its patternId. -/
def segChars : Seg → List Char
  | .plain s => s.data
  | .link s => s.data

/-- The exec loop of AutoLinkText: find the next match, emit the plain run
before it (when non-empty) and the link, continue after the match; emit the
trailing run (when non-empty) once no match remains. -/
def autoLinkGo : Nat → Option Char → List Char → List Seg
  | 0, _, s => if s.isEmpty then [] else [.plain (String.mk s)]
  | fuel + 1, prev, s =>
    match searchGo autoLinkRE prev [] s with
    | none => if s.isEmpty then [] else [.plain (String.mk s)]
    | some (b, c) =>
      (if b.isEmpty then [] else [Seg.plain (String.mk b)]) ++
        Seg.link (String.mk c.consumed) ::
          autoLinkGo fuel (lastOr prev (b ++ c.consumed)) c.rest

def autoLinkText (t : String) : List Seg := autoLinkGo (t.length + 1) none t.data

@[simp] theorem segChars_plain (l : List Char) : segChars (.plain (String.mk l)) = l := rfl

@[simp] theorem segChars_link (l : List Char) : segChars (.link (String.mk l)) = l := rfl

/-- The emitted segments concatenate back to the input, fuel- and
position-independent. -/
theorem autoLinkGo_join : ∀ (fuel : Nat) (prev : Option Char) (s : List Char),
    (autoLinkGo fuel prev s).flatMap segChars = s := by
  intro fuel
  induction fuel with
  | zero =>
    intro prev s
    by_cases h : s.isEmpty
    · simp [autoLinkGo, h, List.isEmpty_iff.mp h]
    · simp [autoLinkGo, h]
  | succ n ih =>
    intro prev s
    unfold autoLinkGo
    cases hm : searchGo autoLinkRE prev [] s with
    | none =>
      by_cases h : s.isEmpty
      · simp [h, List.isEmpty_iff.mp h]
      · simp [h]
    | some bc =>
      obtain ⟨b, c⟩ := bc
      obtain ⟨b2, hb, hsplit⟩ := searchGo_split autoLinkRE s prev [] b c hm
      simp only [List.nil_append] at hb
      subst hb
      by_cases hbe : b.isEmpty
      · have hb0 : b = [] := List.isEmpty_iff.mp hbe
        subst hb0
        simpa [ih] using hsplit
      · have hstep : ((if b.isEmpty = true then ([] : List Seg)
            else [Seg.plain (String.mk b)]) ++
            Seg.link (String.mk c.consumed) ::
              autoLinkGo n (lastOr prev (b ++ c.consumed)) c.rest).flatMap segChars
            = b ++ (c.consumed ++ c.rest) := by
          simp [hbe, ih]
        rw [hstep, hsplit]

/-! ## Claim theorems -/

set_option maxRecDepth 1000000

/-- The sample document of the basic-document scenario: two headings, the
second containing one conformance clause. -/
def sampleMdC8 : String :=
  "## Part A – Kernel\n\n### A.1 - Overview\n\n**CC-A.1-1** | Systems MUST support X.\n"

/-- C8: parsing the sample document with headings "## Part A – Kernel" and
"### A.1 - Overview", the latter containing
"**CC-A.1-1** | Systems MUST support X.", yields a section with ref
"Part-A" at level 2, a section with ref "A.1" at level 3 whose parent is
the Part-A section (by ordinal), and a clause with code "CC-A.1-1",
modality "MUST", and section A.1. -/
theorem C8_basic_document_scenario :
    ((parseFpfSpecMarkdown sampleMdC8 "FPF-Spec(4)" "FPF-Spec (4)" none).sections.map
      fun s => (s.ref, s.title, s.level, s.ord, s.parent_ord)) =
      [("Part-A", "Kernel", 2, 1, none), ("A.1", "Overview", 3, 2, some 1)] ∧
    ((parseFpfSpecMarkdown sampleMdC8 "FPF-Spec(4)" "FPF-Spec (4)" none).clauses.map
      fun c => (c.code, c.modality, c.section_ord)) =
      [("CC-A.1-1", some "MUST", some 2)] := by
  constructor
  · decide
  · decide

/-- C10: the ordered concatenation of the segments emitted by AutoLinkText
(plain-text runs plus the matched pattern-id texts rendered as links)
equals the input string character for character. -/
theorem C10_autolink_preserves_text (t : String) :
    String.mk ((autoLinkText t).flatMap segChars) = t := by
  unfold autoLinkText
  rw [autoLinkGo_join]

/-- The ingestion input used to exhibit the missing transaction: one
section and one clause; the injected boundary fails the fourth statement
(statement 3, the clause INSERT), after the document SELECT (0), the
document INSERT (1) and the section INSERT (2) have been applied. -/
def mdC2 : String := "### A.1 - T\n**CC-A.1-1** | X MUST y."

/-- C2: the source issues no BEGIN/COMMIT, so a failed statement does NOT
restore the prior committed state: failing the clause INSERT leaves the
document row and the section row committed (a partial section tree) while
the caller receives the error.  This refutes the claimed all-or-nothing
behavior (which the spec explicitly requires of the implementation). -/
theorem C2_ingestion_not_atomic :
    ∃ st : Store,
      ingestFpfSpecMarkdown (fun j => j == 3) Store.empty "D" "T" mdC2 none =
        .error st 3 ∧
      st ≠ Store.empty ∧ st.docs.length = 1 ∧ st.sections.length = 1 ∧
      st.clauses = [] := by
  refine ⟨storeAfter (ingestFpfSpecMarkdown (fun j => j == 3) Store.empty "D" "T" mdC2 none),
    rfl, ?_, ?_, ?_, ?_⟩
  · intro h
    have hlen : (storeAfter (ingestFpfSpecMarkdown (fun j => j == 3) Store.empty "D" "T"
        mdC2 none)).docs.length = Store.empty.docs.length := congrArg (fun s => s.docs.length) h
    have h1 : (storeAfter (ingestFpfSpecMarkdown (fun j => j == 3) Store.empty "D" "T"
        mdC2 none)).docs.length = 1 := by decide
    rw [h1] at hlen
    exact absurd hlen (by decide)
  · decide
  · decide
  · decide

/-! ## C9: malformed input -/

theorem updateLast_length (f : PSection → PSection) :
    ∀ l : List PSection, (updateLast f l).length = l.length := by
  intro l
  induction l with
  | nil => rfl
  | cons a t ih =>
    cases t with
    | nil => rfl
    | cons b t2 => simpa [updateLast] using ih

theorem finalizeSection_sections_length (st : PState) (e : Nat) :
    (finalizeSection st e).sections.length = st.sections.length := by
  unfold finalizeSection
  by_cases h : st.sections.isEmpty || st.content.isEmpty
  · simp [h]
  · simp [h, updateLast_length]

theorem stepLine_sections_length (d : String) (st : PState) (i : Nat) (line : String) :
    (stepLine d st i line).sections.length =
      st.sections.length + (if (headingMatch line).isSome then 1 else 0) := by
  unfold stepLine
  cases h : headingMatch line with
  | some lv =>
    simp only [h, Option.isSome_some, if_true]
    simp [finalizeSection_sections_length]
  | none =>
    simp only [h, Option.isSome_none, Bool.false_eq_true, if_false]
    cases hc : extractClause line (i + 1) with
    | some c => simp [hc]
    | none => simp [hc]

theorem foldl_stepLine_sections_length (d : String) :
    ∀ (l : List (Nat × String)) (st : PState),
      (l.foldl (fun acc p => stepLine d acc p.1 p.2) st).sections.length =
        st.sections.length +
          (l.filter fun p => (headingMatch p.2).isSome).length := by
  intro l
  induction l with
  | nil => intro st; simp
  | cons p rest ih =>
    intro st
    simp only [List.foldl_cons]
    rw [ih, stepLine_sections_length]
    by_cases h : (headingMatch p.2).isSome
    · simp [List.filter_cons, h]
      omega
    · simp [List.filter_cons, h]

theorem enumFrom_filter_headings :
    ∀ (lines : List String) (i : Nat),
      ((List.enumFrom i lines).filter fun p => (headingMatch p.2).isSome).length =
        (lines.filter fun l => (headingMatch l).isSome).length := by
  intro lines
  induction lines with
  | nil => intro i; rfl
  | cons a t ih =>
    intro i
    simp only [List.enumFrom_cons, List.filter_cons]
    by_cases h : (headingMatch a).isSome
    · simp [h, ih]
    · simp [h, ih]

/-- The number of heading lines of a document, by the parser's own
heading-line test. -/
def countHeadings (md : String) : Nat :=
  ((splitNl md).filter fun l => (headingMatch l).isSome).length

/-- C9: parsing is total on every input (it is a function in this
embedding): empty input yields a document record carrying the caller's
metadata with all three collections empty; every heading line yields a
section, so none is dropped (the section count equals the heading-line
count for every input); and a heading with no recoverable id still yields
a section carrying the synthesized placeholder reference doc_ref:LlineNum. -/
theorem C9_malformed_input_never_fatal :
    (∀ (d t : String) (v : Option String),
      (parseFpfSpecMarkdown "" d t v).sections = [] ∧
      (parseFpfSpecMarkdown "" d t v).clauses = [] ∧
      (parseFpfSpecMarkdown "" d t v).xrefs = [] ∧
      (parseFpfSpecMarkdown "" d t v).doc.ref = d ∧
      (parseFpfSpecMarkdown "" d t v).doc.title = t) ∧
    (∀ (md d t : String) (v : Option String),
      (parseFpfSpecMarkdown md d t v).sections.length = countHeadings md) ∧
    (parseFpfSpecMarkdown "## $$$" "D" "T" none).sections =
      [⟨"D:L1", "$$$", 2, 1, none, none, 1, none⟩] := by
  refine ⟨fun d t v => ⟨rfl, rfl, rfl, rfl, rfl⟩, ?_, by decide⟩
  intro md d t v
  show (finalizeSection ((splitNl md).enum.foldl
      (fun st p => stepLine d st p.1 p.2) ⟨[], [], [], [], 0, []⟩) (splitNl md).length).sections.length = _
  rw [finalizeSection_sections_length, foldl_stepLine_sections_length]
  simpa [List.enum] using enumFrom_filter_headings (splitNl md) 0

/-! ## C3: the parent-depth invariant -/

/-- The hierarchy-relevant projection of a section (ordinal, level, parent
ordinal); body finalization does not change it. -/
def projSec (s : PSection) : Nat × Nat × Option Nat := (s.ord, s.level, s.parent_ord)

/-- The parent-depth invariant over projections. -/
def ParentInvP (ps : List (Nat × Nat × Option Nat)) : Prop :=
  ∀ x ∈ ps, ∀ p, x.2.2 = some p →
    ∃ y ∈ ps, y.1 = p ∧ y.2.1 < x.2.1 ∧ y.1 < x.1

/-- Every stack entry has an ordinal at most the current counter and records
the level/ordinal of an emitted section. -/
def StackInvP (stack : List (Nat × Nat)) (ord : Nat)
    (ps : List (Nat × Nat × Option Nat)) : Prop :=
  ∀ e ∈ stack, e.2 ≤ ord ∧ ∃ y ∈ ps, y.1 = e.2 ∧ y.2.1 = e.1

def ParserInv (st : PState) : Prop :=
  StackInvP st.stack st.ord (st.sections.map projSec) ∧
  ParentInvP (st.sections.map projSec)

theorem head_dropWhile_not (p : α → Bool) :
    ∀ (l : List α) (e : α), (l.dropWhile p).head? = some e → p e = false := by
  intro l
  induction l with
  | nil => intro e h; simp [List.dropWhile] at h
  | cons a t ih =>
    intro e h
    by_cases hp : p a
    · rw [List.dropWhile_cons_of_pos hp] at h
      exact ih e h
    · rw [List.dropWhile_cons_of_neg hp] at h
      simp only [List.head?_cons, Option.some.injEq] at h
      subst h
      simpa using hp

theorem updateLast_map_projSec (f : PSection → PSection)
    (hf : ∀ s, projSec (f s) = projSec s) :
    ∀ l : List PSection, (updateLast f l).map projSec = l.map projSec := by
  intro l
  induction l with
  | nil => rfl
  | cons a t ih =>
    cases t with
    | nil => simp [updateLast, hf]
    | cons b t2 => simpa [updateLast] using ih

theorem finalizeSection_proj (st : PState) (e : Nat) :
    (finalizeSection st e).sections.map projSec = st.sections.map projSec ∧
    (finalizeSection st e).stack = st.stack ∧
    (finalizeSection st e).ord = st.ord := by
  unfold finalizeSection
  by_cases h : st.sections.isEmpty || st.content.isEmpty
  · simp [h]
  · simp only [h, Bool.false_eq_true, if_false]
    refine ⟨?_, by simp, by simp⟩
    apply updateLast_map_projSec
    intro s
    rfl

/-- Pushing one heading onto the stack and the section list preserves both
invariants: the new parent (the stack top after popping levels at least as
deep) is an already-emitted section of strictly smaller level and ordinal. -/
theorem pushSection_inv (ps : List (Nat × Nat × Option Nat)) (stack : List (Nat × Nat))
    (ord level : Nat)
    (hstack : StackInvP stack ord ps) (hparent : ParentInvP ps) :
    StackInvP ((level, ord + 1) :: stack.dropWhile fun e => level ≤ e.1) (ord + 1)
      (ps ++ [(ord + 1, level,
        (stack.dropWhile fun e => level ≤ e.1).head?.map fun e => e.2)]) ∧
    ParentInvP (ps ++ [(ord + 1, level,
      (stack.dropWhile fun e => level ≤ e.1).head?.map fun e => e.2)]) := by
  constructor
  · intro e he
    simp only [List.mem_cons] at he
    rcases he with rfl | he
    · refine ⟨Nat.le_refl _, ⟨(ord + 1, level,
        (stack.dropWhile fun e => level ≤ e.1).head?.map fun e => e.2), ?_, rfl, rfl⟩⟩
      simp
    · have hmem : e ∈ stack :=
        List.Sublist.subset (List.dropWhile_sublist _) he
      obtain ⟨hle, y, hy, hy1, hy2⟩ := hstack e hmem
      exact ⟨Nat.le_succ_of_le hle, y, by simp [hy], hy1, hy2⟩
  · intro x hx p hp
    simp only [List.mem_append, List.mem_singleton] at hx
    rcases hx with hx | rfl
    · obtain ⟨y, hy, hprops⟩ := hparent x hx p hp
      exact ⟨y, by simp [hy], hprops⟩
    · simp only at hp
      obtain ⟨e, he, he2⟩ : ∃ e, (stack.dropWhile fun e2 => level ≤ e2.1).head? = some e ∧
          e.2 = p := by
        cases hh : (stack.dropWhile fun e2 => level ≤ e2.1).head? with
        | none => simp [hh] at hp
        | some e0 => exact ⟨e0, rfl, by simpa [hh] using hp⟩
      have hmem : e ∈ stack :=
        List.Sublist.subset (List.dropWhile_sublist _)
          (List.mem_of_mem_head? (Option.mem_def.mpr he))
      obtain ⟨hle, y, hy, hy1, hy2⟩ := hstack e hmem
      have hlev : (fun e2 : Nat × Nat => decide (level ≤ e2.1)) e = false :=
        head_dropWhile_not (fun e2 => decide (level ≤ e2.1)) stack e he
      simp only at hlev
      have hlev2 : e.1 < level := by
        by_contra hcon
        simp [Nat.le_of_not_lt hcon] at hlev
      refine ⟨y, by simp [hy], ?_, ?_, ?_⟩
      · omega
      · show y.2.1 < level
        omega
      · show y.1 < ord + 1
        omega

theorem stepLine_inv (d : String) (st : PState) (i : Nat) (line : String)
    (hinv : ParserInv st) : ParserInv (stepLine d st i line) := by
  obtain ⟨hstack, hparent⟩ := hinv
  unfold stepLine
  cases hm : headingMatch line with
  | some lv =>
    simp only
    obtain ⟨hps, hst, hord⟩ := finalizeSection_proj st (i + 1 - 1)
    have hstack1 : StackInvP (finalizeSection st (i + 1 - 1)).stack
        (finalizeSection st (i + 1 - 1)).ord
        ((finalizeSection st (i + 1 - 1)).sections.map projSec) := by
      rw [hps, hst, hord]; exact hstack
    have hparent1 : ParentInvP ((finalizeSection st (i + 1 - 1)).sections.map projSec) := by
      rw [hps]; exact hparent
    have hmain := pushSection_inv ((finalizeSection st (i + 1 - 1)).sections.map projSec)
      (finalizeSection st (i + 1 - 1)).stack (finalizeSection st (i + 1 - 1)).ord lv.1
      hstack1 hparent1
    constructor
    · show StackInvP _ _ _
      simpa [projSec, List.map_append] using hmain.1
    · show ParentInvP _
      simpa [projSec, List.map_append] using hmain.2
  | none =>
    cases hc : extractClause line (i + 1) with
    | some c =>
      simp only [hc]
      exact ⟨hstack, hparent⟩
    | none =>
      simp only [hc]
      exact ⟨hstack, hparent⟩

theorem foldl_stepLine_inv (d : String) :
    ∀ (l : List (Nat × String)) (st : PState), ParserInv st →
      ParserInv (l.foldl (fun acc p => stepLine d acc p.1 p.2) st) := by
  intro l
  induction l with
  | nil => intro st h; exact h
  | cons p rest ih =>
    intro st h
    exact ih _ (stepLine_inv d st p.1 p.2 h)

/-- C3: for every parse of any input document, every section whose parent
link is non-null points at a section with a strictly shallower level and a
strictly smaller ordinal. -/
theorem C3_parent_depth_invariant (md d t : String) (v : Option String) :
    ∀ s ∈ (parseFpfSpecMarkdown md d t v).sections, ∀ p, s.parent_ord = some p →
      ∃ q ∈ (parseFpfSpecMarkdown md d t v).sections,
        q.ord = p ∧ q.level < s.level ∧ q.ord < s.ord := by
  intro s hs p hp
  have hinv : ParserInv ((splitNl md).enum.foldl
      (fun acc q => stepLine d acc q.1 q.2) ⟨[], [], [], [], 0, []⟩) :=
    foldl_stepLine_inv d _ _ ⟨by intro e he; simp at he, by intro x hx; simp at hx⟩
  obtain ⟨hps, _, _⟩ := finalizeSection_proj ((splitNl md).enum.foldl
      (fun acc q => stepLine d acc q.1 q.2) ⟨[], [], [], [], 0, []⟩) (splitNl md).length
  have hparent : ParentInvP ((parseFpfSpecMarkdown md d t v).sections.map projSec) := by
    show ParentInvP ((finalizeSection _ _).sections.map projSec)
    rw [hps]
    exact hinv.2
  have hx : projSec s ∈ (parseFpfSpecMarkdown md d t v).sections.map projSec :=
    List.mem_map_of_mem projSec hs
  obtain ⟨y, hy, hy1, hy2, hy3⟩ := hparent (projSec s) hx p hp
  obtain ⟨q, hq, hqy⟩ := List.mem_map.mp hy
  refine ⟨q, hq, ?_, ?_, ?_⟩
  · rw [show q.ord = (projSec q).1 from rfl, hqy]; exact hy1
  · rw [show q.level = (projSec q).2.1 from rfl, hqy]
    exact hy2
  · rw [show q.ord = (projSec q).1 from rfl, hqy]; exact hy3

/-- C3 witness: in the two-heading document below, the level-3 section has
parent ordinal 1, and the theorem produces the level-2 parent section. -/
theorem C3_parent_depth_invariant_witness :
    (∃ s ∈ (parseFpfSpecMarkdown "## A\n### B" "D" "T" none).sections,
      s.parent_ord = some 1) ∧
    ∃ q ∈ (parseFpfSpecMarkdown "## A\n### B" "D" "T" none).sections,
      q.ord = 1 ∧ q.level < 3 ∧ q.ord < 2 := by
  constructor
  · exact ⟨⟨"D:L2", "B", 3, 2, some 1, none, 2, none⟩, by decide, rfl⟩
  · exact C3_parent_depth_invariant "## A\n### B" "D" "T" none
      ⟨"D:L2", "B", 3, 2, some 1, none, 2, none⟩ (by decide) 1 rfl

/-! ## C5: dash normalization -/

theorem firstMatch_caps (re : RE) (prev : Option Char) (s : List Char) (c : Cand)
    (h : firstMatch re prev s = some c) :
    ∀ g ∈ c.caps, ∀ ch ∈ g.2, ch ∈ c.consumed := by
  have hmem : c ∈ mtch (s.length + 8) re prev s := by
    unfold firstMatch at h
    exact List.mem_of_mem_head? (Option.mem_def.mpr h)
  exact (mtch_caps_nonNull _ re prev s c hmem).1

/-- Captured characters of a successful search come from its consumed
characters. -/
theorem searchGo_caps (re : RE) :
    ∀ (s : List Char) (prev : Option Char) (pre b : List Char) (c : Cand),
      searchGo re prev pre s = some (b, c) →
      ∀ g ∈ c.caps, ∀ ch ∈ g.2, ch ∈ c.consumed := by
  intro s
  induction s with
  | nil =>
    intro prev pre b c h
    unfold searchGo at h
    cases hm : firstMatch re prev [] with
    | none => simp [hm] at h
    | some c0 =>
      simp only [hm, Option.map_some] at h
      obtain ⟨rfl, rfl⟩ : pre = b ∧ c0 = c := by simpa [Prod.ext_iff] using h
      exact firstMatch_caps re prev [] c0 hm
  | cons ch0 t ih =>
    intro prev pre b c h
    unfold searchGo at h
    cases hm : firstMatch re prev (ch0 :: t) with
    | some c0 =>
      simp only [hm] at h
      obtain ⟨rfl, rfl⟩ : pre = b ∧ c0 = c := by simpa [Prod.ext_iff] using h
      exact firstMatch_caps re prev (ch0 :: t) c0 hm
    | none =>
      simp only [hm] at h
      exact ih (some ch0) (pre ++ [ch0]) b c h

/-- Characters of an extracted capture group come from the searched text. -/
theorem searchRE_cap_chars (re : RE) (s b : List Char) (c : Cand) (i : Nat)
    (h : searchRE re s = some (b, c)) : ∀ ch ∈ cap c i, ch ∈ s := by
  intro ch hch
  have hcons : ch ∈ c.consumed := by
    unfold cap at hch
    cases hf : c.caps.find? fun g => g.1 == i with
    | none => simp [hf] at hch
    | some g =>
      have hg : g ∈ c.caps := List.mem_of_find?_eq_some hf
      simp only [hf, Option.map_some, Option.getD_some] at hch
      exact searchGo_caps re s none [] b c h g hg ch hch
  have hsplit := searchRE_split re s b c h
  rw [← hsplit]
  simp [hcons]

/-- The normalized line contains no typographic dash. -/
theorem normalizeDashes_no_typographic (l : List Char) :
    ∀ ch ∈ normalizeDashes l, ch ≠ '‑' ∧ ch ≠ '–' ∧ ch ≠ '—' := by
  intro ch hch
  obtain ⟨c0, _, rfl⟩ := List.mem_map.mp hch
  unfold normalizeDashChar
  by_cases h : c0 == '‑' || c0 == '–' || c0 == '—'
  · simp only [h, if_true]
    refine ⟨by decide, by decide, by decide⟩
  · simp only [h, Bool.false_eq_true, if_false]
    simp only [Bool.or_eq_true, beq_iff_eq, not_or] at h
    exact ⟨h.1.1, h.1.2, h.2⟩

/-- C5: (i) the source normalizes unicode hyphen, en dash and em dash to a
plain hyphen, so any two lines that agree after dash normalization — in
particular a clause marker written with any of the dash variants — extract
the identical clause (same code, text, modality); (ii) every emitted code
carries the uppercase prefix "CC-" and contains no typographic dash (its
dashes are plain hyphens). -/
theorem C5_dash_normalization :
    (normalizeDashChar '‑' = '-' ∧ normalizeDashChar '–' = '-' ∧
     normalizeDashChar '—' = '-' ∧ normalizeDashChar '-' = '-') ∧
    (∀ (l1 l2 : String) (n : Nat),
      normalizeDashes l1.data = normalizeDashes l2.data →
      extractClause l1 n = extractClause l2 n) ∧
    (∀ (l : String) (n : Nat) (c : Clause0), extractClause l n = some c →
      (∃ rest, c.code = "CC-" ++ rest) ∧
      ∀ ch ∈ c.code.data, ch ≠ '‑' ∧ ch ≠ '–' ∧ ch ≠ '—') := by
  refine ⟨⟨by decide, by decide, by decide, by decide⟩, ?_, ?_⟩
  · intro l1 l2 n h
    unfold extractClause
    rw [h]
  · intro l n c h
    unfold extractClause at h
    cases hs : searchRE clauseRE (normalizeDashes l.data) with
    | none => simp [hs] at h
    | some bc =>
      obtain ⟨b, cand⟩ := bc
      simp only [hs, Option.some.injEq] at h
      subst h
      constructor
      · exact ⟨String.mk (cap cand 1), rfl⟩
      · intro ch hch
        simp only [String.data_append] at hch
        rw [List.mem_append] at hch
        rcases hch with hch | hch
        · revert ch
          decide
        · have hin : ch ∈ normalizeDashes l.data :=
            searchRE_cap_chars clauseRE (normalizeDashes l.data) b cand 1 hs ch hch
          exact normalizeDashes_no_typographic l.data ch hin

/-- C5 witness: the same marker written with unicode hyphens and with en
dashes extracts the identical clause, and the emitted code of the first
carries the "CC-" prefix and only plain hyphens. -/
theorem C5_dash_normalization_witness :
    (normalizeDashes ("**CC‑A.1‑1** | X.").data =
        normalizeDashes ("**CC–A.1–1** | X.").data ∧
      extractClause "**CC‑A.1‑1** | X." 1 = extractClause "**CC–A.1–1** | X." 1) ∧
    (extractClause "**CC‑A.1‑1** | X." 1 = some ⟨"CC-A.1-1", "X.", none, 1⟩ ∧
      (∃ rest, (⟨"CC-A.1-1", "X.", none, 1⟩ : Clause0).code = "CC-" ++ rest) ∧
      ∀ ch ∈ (⟨"CC-A.1-1", "X.", none, 1⟩ : Clause0).code.data,
        ch ≠ '‑' ∧ ch ≠ '–' ∧ ch ≠ '—') :=
  ⟨⟨by decide, C5_dash_normalization.2.1 "**CC‑A.1‑1** | X." "**CC–A.1–1** | X." 1
      (by decide)⟩,
   ⟨by decide, C5_dash_normalization.2.2 "**CC‑A.1‑1** | X." 1
      ⟨"CC-A.1-1", "X.", none, 1⟩ (by decide)⟩⟩

/-! ## C7: the xref gate -/

/-- C7: a content line containing none of the relation keywords and no
token of the bare structural-id shape contributes zero xrefs (the gate
rejects it), and the line "Builds on A.1" contributes exactly one
section-type xref targeting "A.1". -/
theorem C7_ungated_prose :
    (∀ (line : String) (ord : Option Nat) (n : Nat),
      (relationKeywords.any fun kw => containsSub line.data kw.data) = false →
      (searchRE bareIdRE line.data).isSome = false →
      lineXrefs line ord n = []) ∧
    (∀ (ord : Option Nat) (n : Nat),
      lineXrefs "Builds on A.1" ord n =
        [⟨ord, n, "A.1", "section", "Builds on A.1"⟩]) := by
  constructor
  · intro line ord n h1 h2
    unfold lineXrefs
    have hg : xrefGate line = false := by
      unfold xrefGate
      rw [h1, h2]
      simp
    rw [hg]
    simp
  · intro ord n
    rfl

/-- C7 witness: ordinary prose with a decimal number is rejected by the
gate and contributes no xrefs; "Builds on A.1" contributes its single
section xref. -/
theorem C7_ungated_prose_witness :
    ((relationKeywords.any fun kw =>
        containsSub ("The value is 3.14.").data kw.data) = false ∧
      (searchRE bareIdRE ("The value is 3.14.").data).isSome = false ∧
      lineXrefs "The value is 3.14." (some 1) 7 = []) ∧
    lineXrefs "Builds on A.1" (some 1) 7 =
      [⟨some 1, 7, "A.1", "section", "Builds on A.1"⟩] :=
  ⟨⟨by decide, by decide,
    C7_ungated_prose.1 "The value is 3.14." (some 1) 7 (by decide) (by decide)⟩,
   C7_ungated_prose.2 (some 1) 7⟩

/-! ## C4: the hash -/

theorem wordBytesBE_length (w : Nat) : (wordBytesBE w).length = 4 := rfl

theorem wordBytesBE_lt (w : Nat) : ∀ b ∈ wordBytesBE w, b < 256 := by
  intro b hb
  simp only [wordBytesBE, List.mem_cons, List.not_mem_nil, or_false] at hb
  rcases hb with rfl | rfl | rfl | rfl <;> exact Nat.mod_lt _ (by decide)

theorem sha256Bytes_length (msg : List Nat) : (sha256Bytes msg).length = 32 := by
  simp [sha256Bytes, wordBytesBE]

theorem sha256Bytes_lt (msg : List Nat) : ∀ b ∈ sha256Bytes msg, b < 256 := by
  intro b hb
  simp only [sha256Bytes, List.mem_append] at hb
  rcases hb with ((((((h | h) | h) | h) | h) | h) | h) | h <;>
    exact wordBytesBE_lt _ b h

theorem flatMap_hexOfByte_length : ∀ l : List Nat, (l.flatMap hexOfByte).length = 2 * l.length := by
  intro l
  induction l with
  | nil => rfl
  | cons a t ih =>
    simp only [List.flatMap_cons, List.length_append, ih]
    simp [hexOfByte]
    omega

theorem hexDigitChar_mem : ∀ i < 16, hexDigitChar i ∈ ("0123456789abcdef").data := by
  decide

/-- The digest byte sequence as a function into a finite type. -/
def digestFin (s : String) : Fin 32 → Fin 256 := fun i =>
  ⟨(sha256Digest s).getD i 0, by
    have hlen : (sha256Digest s).length = 32 := sha256Bytes_length _
    have hi : (i : Nat) < (sha256Digest s).length := by rw [hlen]; exact i.isLt
    rw [List.getD_eq_getElem _ _ hi]
    exact sha256Bytes_lt _ _ (List.getElem_mem hi)⟩

/-- Two strings with equal digest functions have equal hashes. -/
theorem digestFin_eq_hash {s1 s2 : String} (h : digestFin s1 = digestFin s2) :
    sha256 s1 = sha256 s2 := by
  have hbytes : sha256Digest s1 = sha256Digest s2 := by
    have h1 : (sha256Digest s1).length = 32 := sha256Bytes_length _
    have h2 : (sha256Digest s2).length = 32 := sha256Bytes_length _
    refine List.ext_getElem (by rw [h1, h2]) ?_
    intro n hn1 hn2
    have hn : n < 32 := by rw [h1] at hn1; exact hn1
    have hfn := congrFun h ⟨n, hn⟩
    have hv : (sha256Digest s1).getD n 0 = (sha256Digest s2).getD n 0 :=
      congrArg Fin.val hfn
    rw [List.getD_eq_getElem _ _ hn1, List.getD_eq_getElem _ _ hn2] at hv
    exact hv
  unfold sha256
  rw [hbytes]

/-- C4 counterexample to the injectivity half of the claim: a fixed-length
digest cannot be injective on the infinite domain of strings, so the spec's
statement "for any s1 ≠ s2, hash(s1) ≠ hash(s2)" is false — there exist two
distinct strings with equal sha256. -/
theorem C4_hash_injectivity_false :
    ¬ (∀ s1 s2 : String, s1 ≠ s2 → sha256 s1 ≠ sha256 s2) := by
  intro h
  obtain ⟨s1, s2, hne, heq⟩ := Finite.exists_ne_map_eq_of_infinite digestFin
  exact h s1 s2 hne (digestFin_eq_hash heq)

/-- C4 (amended): for every string s, sha256 s is a fixed-length
64-character string of lowercase hex digits, and computing it twice yields
equal results (it is a pure function of s); injectivity is dropped, since
distinct inputs can collide (see the counterexample). -/
theorem C4_hash_shape_and_determinism (s : String) :
    (sha256 s).length = 64 ∧
    (∀ c ∈ (sha256 s).data, c ∈ ("0123456789abcdef").data) ∧
    sha256 s = sha256 s := by
  refine ⟨?_, ?_, rfl⟩
  · show ((sha256Digest s).flatMap hexOfByte).length = 64
    have hd : (sha256Digest s).length = 32 := sha256Bytes_length _
    rw [flatMap_hexOfByte_length, hd]
  · intro c hc
    have hc2 : c ∈ (sha256Digest s).flatMap hexOfByte := hc
    obtain ⟨b, hb, hcb⟩ := List.mem_flatMap.mp hc2
    have hblt : b < 256 := sha256Bytes_lt _ b hb
    simp only [hexOfByte, List.mem_cons, List.not_mem_nil, or_false] at hcb
    rcases hcb with rfl | rfl
    · exact hexDigitChar_mem _ (Nat.div_lt_of_lt_mul (by omega))
    · exact hexDigitChar_mem _ (Nat.mod_lt _ (by decide))

/-! ## C6: modality precedence -/

/-- A modality keyword occurs at position j of t (with \b word boundaries on
both sides), stated independently of the scanner's traversal. -/
def kwOccursAt (t : List Char) (j : Nat) (kw : List Char) : Bool :=
  kwHere (if j = 0 then none else (t.drop (j - 1)).head?) (t.drop j) kw

/-- C6 counterexample: the claim "a clause containing MUST NOT yields
modality MUST NOT, never MUST" is false as stated: when a standalone MUST
occurs earlier in the clause text, the leftmost-occurrence rule of the
regex picks MUST even though the clause contains MUST NOT. -/
theorem C6_contains_mustnot_false :
    ¬ (∀ (l : String) (n : Nat) (c : Clause0), extractClause l n = some c →
        containsSub c.text.data ("MUST NOT").data = true →
        c.modality = some "MUST NOT") := by
  intro h
  have hc := h "**CC-Z.1-1** | Systems MUST do X and MUST NOT do Y." 1
    ⟨"CC-Z.1-1", "Systems MUST do X and MUST NOT do Y.", some "MUST", 1⟩
    (by decide) (by decide)
  exact absurd hc (by decide)

theorem tryKwsAt_nil_eq_none (prev : Option Char) : tryKwsAt prev [] = none := by
  simp [tryKwsAt, modalityKeywords, kwHere, leadsWith]

/-- If no modality keyword occurs at any position, the scan returns none. -/
theorem findModality_eq_none : ∀ (s : List Char) (prev : Option Char),
    (∀ j kw, kw ∈ modalityKeywords →
      kwHere (if j = 0 then prev else (s.drop (j - 1)).head?) (s.drop j) kw = false) →
    findModality prev s = none := by
  intro s
  induction s with
  | nil =>
    intro prev _
    exact tryKwsAt_nil_eq_none prev
  | cons c t ih =>
    intro prev h
    have h0 : ∀ kw ∈ modalityKeywords, kwHere prev (c :: t) kw = false := by
      intro kw hkw
      have := h 0 kw hkw
      simpa using this
    unfold findModality
    have htry : tryKwsAt prev (c :: t) = none :=
      List.find?_eq_none.mpr fun kw hkw => by simp [h0 kw hkw]
    rw [htry]
    apply ih (some c)
    intro j kw hkw
    have := h (j + 1) kw hkw
    cases j with
    | zero => simpa using this
    | succ j2 => simpa [List.drop_succ_cons] using this

/-- If the leftmost keyword occurrence carries "MUST NOT", the scan returns
"MUST NOT" (the two-word negative alternative is tried before "MUST"). -/
theorem findModality_mustnot : ∀ (i : Nat) (s : List Char) (prev : Option Char),
    kwHere (if i = 0 then prev else (s.drop (i - 1)).head?) (s.drop i)
      ("MUST NOT").data = true →
    (∀ j kw, j < i → kw ∈ modalityKeywords →
      kwHere (if j = 0 then prev else (s.drop (j - 1)).head?) (s.drop j) kw = false) →
    findModality prev s = some ("MUST NOT").data := by
  intro i
  induction i with
  | zero =>
    intro s prev hocc _
    simp only [if_true, List.drop_zero] at hocc
    cases s with
    | nil => simp [kwHere, leadsWith] at hocc
    | cons c t =>
      unfold findModality
      have htry : tryKwsAt prev (c :: t) = some ("MUST NOT").data := by
        unfold tryKwsAt modalityKeywords
        rw [List.find?_cons_of_pos _ hocc]
      rw [htry]
  | succ i2 ih =>
    intro s prev hocc hlt
    cases s with
    | nil => simp [kwHere, leadsWith] at hocc
    | cons c t =>
      have h0 : ∀ kw ∈ modalityKeywords, kwHere prev (c :: t) kw = false := by
        intro kw hkw
        have := hlt 0 kw (Nat.succ_pos i2) hkw
        simpa using this
      unfold findModality
      have htry : tryKwsAt prev (c :: t) = none :=
        List.find?_eq_none.mpr fun kw hkw => by simp [h0 kw hkw]
      rw [htry]
      apply ih t (some c)
      · cases i2 with
        | zero => simpa using hocc
        | succ i3 => simpa [List.drop_succ_cons] using hocc
      · intro j kw hj hkw
        have := hlt (j + 1) kw (Nat.succ_lt_succ hj) hkw
        cases j with
        | zero => simpa using this
        | succ j2 => simpa [List.drop_succ_cons] using this

/-- C6 (amended): modality extraction scans for the leftmost keyword
occurrence, trying the two-word negative forms before their one-word
stems at each position: a clause whose FIRST modality-keyword occurrence
is "MUST NOT" yields modality "MUST NOT", never "MUST"; if no keyword
occurs at any position, the modality is left unset; and the modality of
every extracted clause is exactly this scan of its clause text. -/
theorem C6_modality_precedence_amended :
    (∀ t : List Char,
      (∀ j kw, kw ∈ modalityKeywords → kwOccursAt t j kw = false) →
      findModality none t = none) ∧
    (∀ (t : List Char) (i : Nat),
      kwOccursAt t i ("MUST NOT").data = true →
      (∀ j kw, j < i → kw ∈ modalityKeywords → kwOccursAt t j kw = false) →
      findModality none t = some ("MUST NOT").data) ∧
    (∀ (l : String) (n : Nat) (c : Clause0), extractClause l n = some c →
      c.modality = (findModality none c.text.data).map String.mk) := by
  refine ⟨?_, ?_, ?_⟩
  · intro t h
    exact findModality_eq_none t none fun j kw hkw => h j kw hkw
  · intro t i hocc hlt
    exact findModality_mustnot i t none hocc fun j kw hj hkw => hlt j kw hj hkw
  · intro l n c h
    unfold extractClause at h
    cases hs : searchRE clauseRE (normalizeDashes l.data) with
    | none => simp [hs] at h
    | some bc =>
      obtain ⟨b, cand⟩ := bc
      simp only [hs, Option.some.injEq] at h
      subst h
      rfl

/-- C6 witness: in "Systems MUST NOT explode." the first (and only)
keyword occurrence is "MUST NOT" at position 8, and the scan returns
"MUST NOT"; and the clause link applies on a concrete extraction. -/
theorem C6_modality_precedence_amended_witness :
    (kwOccursAt ("Systems MUST NOT explode.").data 8 ("MUST NOT").data = true ∧
      (∀ j < 8, ∀ kw ∈ modalityKeywords,
        kwOccursAt ("Systems MUST NOT explode.").data j kw = false) ∧
      findModality none ("Systems MUST NOT explode.").data = some ("MUST NOT").data) ∧
    (extractClause "**CC-A.9-1** | Systems MUST NOT explode." 1 =
        some ⟨"CC-A.9-1", "Systems MUST NOT explode.", some "MUST NOT", 1⟩ ∧
      (some "MUST NOT" : Option String) =
        (findModality none ("Systems MUST NOT explode.").data).map String.mk) :=
  ⟨⟨by decide, by decide,
    C6_modality_precedence_amended.2.1 ("Systems MUST NOT explode.").data 8
      (by decide)
      (fun j kw hj hkw =>
        (by decide : ∀ j < 8, ∀ kw ∈ modalityKeywords,
          kwOccursAt ("Systems MUST NOT explode.").data j kw = false) j hj kw hkw)⟩,
   ⟨by decide,
    C6_modality_precedence_amended.2.2 "**CC-A.9-1** | Systems MUST NOT explode." 1
      ⟨"CC-A.9-1", "Systems MUST NOT explode.", some "MUST NOT", 1⟩ (by decide)⟩⟩

/-! ## C1: idempotent re-ingestion -/

/-- The section rows the no-failure pipeline inserts for a parse, given the
document id, the first fresh rowid and the initial ordinal map. -/
def builtSections (docId : Nat) : Nat → List (Nat × Nat) → List PSection → List SectionRow
  | _, _, [] => []
  | base, m, sec :: rest =>
    ⟨base, docId, sec.ref, sec.title, sec.level, sec.ord,
      translateOrd m sec.parent_ord, sec.text, sec.line_start, sec.line_end⟩ ::
    builtSections docId (base + 1) (m ++ [(sec.ord, base)]) rest

/-- The ordinal-to-rowid map after inserting the sections. -/
def builtMap : Nat → List PSection → List (Nat × Nat)
  | _, [] => []
  | base, sec :: rest => (sec.ord, base) :: builtMap (base + 1) rest

def builtClauses (docId : Nat) (m : List (Nat × Nat)) : Nat → List PClause → List ClauseRow
  | _, [] => []
  | base, cl :: rest =>
    ⟨base, docId, translateOrd m cl.section_ord, cl.code, cl.text, cl.modality, cl.lineNum⟩ ::
    builtClauses docId m (base + 1) rest

def builtXrefs (docId : Nat) (m : List (Nat × Nat)) : Nat → List PXref → List XrefRow
  | _, [] => []
  | base, x :: rest =>
    ⟨base, docId, translateOrd m x.source_ord, x.source_line, x.targetRef,
      x.targetType, x.context⟩ ::
    builtXrefs docId m (base + 1) rest

theorem insertSections_noFail (docId : Nat) :
    ∀ (rows : List PSection) (st : Store) (ctr : Nat) (m : List (Nat × Nat)),
      insertSections noFail docId rows st ctr m =
        .ok ({ st with
                sections := st.sections ++ builtSections docId st.nextSectionId m rows
                nextSectionId := st.nextSectionId + rows.length },
             ctr + rows.length, m ++ builtMap st.nextSectionId rows) := by
  intro rows
  induction rows with
  | nil =>
    intro st ctr m
    simp [insertSections, builtSections, builtMap]
  | cons sec rest ih =>
    intro st ctr m
    show insertSections noFail docId (sec :: rest) st ctr m = _
    unfold insertSections
    simp only [noFail, Bool.false_eq_true, if_false]
    rw [ih]
    simp only [builtSections, builtMap, List.length_cons]
    simp [List.append_assoc, Nat.add_comm, Nat.add_left_comm, Nat.add_assoc]

theorem insertClauses_noFail (docId : Nat) (m : List (Nat × Nat)) :
    ∀ (rows : List PClause) (st : Store) (ctr : Nat),
      insertClauses noFail docId m rows st ctr =
        .ok ({ st with
                clauses := st.clauses ++ builtClauses docId m st.nextClauseId rows
                nextClauseId := st.nextClauseId + rows.length },
             ctr + rows.length) := by
  intro rows
  induction rows with
  | nil =>
    intro st ctr
    simp [insertClauses, builtClauses]
  | cons cl rest ih =>
    intro st ctr
    show insertClauses noFail docId m (cl :: rest) st ctr = _
    unfold insertClauses
    simp only [noFail, Bool.false_eq_true, if_false]
    rw [ih]
    simp only [builtClauses, List.length_cons]
    simp [List.append_assoc, Nat.add_comm, Nat.add_left_comm, Nat.add_assoc]

theorem insertXrefs_noFail (docId : Nat) (m : List (Nat × Nat)) :
    ∀ (rows : List PXref) (st : Store) (ctr : Nat),
      insertXrefs noFail docId m rows st ctr =
        .ok ({ st with
                xrefs := st.xrefs ++ builtXrefs docId m st.nextXrefId rows
                nextXrefId := st.nextXrefId + rows.length },
             ctr + rows.length) := by
  intro rows
  induction rows with
  | nil =>
    intro st ctr
    simp [insertXrefs, builtXrefs]
  | cons x rest ih =>
    intro st ctr
    show insertXrefs noFail docId m (x :: rest) st ctr = _
    unfold insertXrefs
    simp only [noFail, Bool.false_eq_true, if_false]
    rw [ih]
    simp only [builtXrefs, List.length_cons]
    simp [List.append_assoc, Nat.add_comm, Nat.add_left_comm, Nat.add_assoc]

theorem insertAll_noFail (docId : Nat) (parsed : ParseResult) (st : Store) (ctr : Nat) :
    insertAll noFail docId parsed st ctr =
      .ok { st with
            sections := st.sections ++ builtSections docId st.nextSectionId [] parsed.sections
            clauses := st.clauses ++
              builtClauses docId (builtMap st.nextSectionId parsed.sections)
                st.nextClauseId parsed.clauses
            xrefs := st.xrefs ++
              builtXrefs docId (builtMap st.nextSectionId parsed.sections)
                st.nextXrefId parsed.xrefs
            nextSectionId := st.nextSectionId + parsed.sections.length
            nextClauseId := st.nextClauseId + parsed.clauses.length
            nextXrefId := st.nextXrefId + parsed.xrefs.length }
        ⟨docId, parsed.sections.length, parsed.clauses.length, parsed.xrefs.length⟩ := by
  unfold insertAll
  simp only [insertSections_noFail, insertClauses_noFail, insertXrefs_noFail,
    List.nil_append]

/-! Shifting all persisted section ids by a constant (what a re-ingestion
does, since SQLite hands out fresh consecutive rowids) changes no
content. -/

def shiftPair (d : Nat) (e : Nat × Nat) : Nat × Nat := (e.1, e.2 + d)

def shiftSectionRow (d : Nat) (r : SectionRow) : SectionRow :=
  { r with id := r.id + d, parent_id := r.parent_id.map fun x => x + d }

def shiftClauseRow (dc d : Nat) (r : ClauseRow) : ClauseRow :=
  { r with id := r.id + dc, section_id := r.section_id.map fun x => x + d }

def shiftXrefRow (dx d : Nat) (r : XrefRow) : XrefRow :=
  { r with id := r.id + dx, source_id := r.source_id.map fun x => x + d }

theorem lookupOrd_shift (d : Nat) :
    ∀ (m : List (Nat × Nat)) (p : Nat),
      lookupOrd (m.map (shiftPair d)) p = (lookupOrd m p).map fun x => x + d := by
  intro m p
  induction m with
  | nil => rfl
  | cons e t ih =>
    unfold lookupOrd at ih ⊢
    by_cases h : e.1 == p
    · simp [shiftPair, List.find?_cons, h]
    · simp only [List.map_cons, List.find?_cons, shiftPair, h]
      exact ih

theorem translateOrd_shift (d : Nat) (m : List (Nat × Nat)) (po : Option Nat) :
    translateOrd (m.map (shiftPair d)) po = (translateOrd m po).map fun x => x + d := by
  cases po with
  | none => rfl
  | some p =>
    unfold translateOrd
    by_cases h : p == 0
    · simp [h]
    · simp only [h, Bool.false_eq_true, if_false]
      exact lookupOrd_shift d m p

theorem builtMap_shift (d : Nat) :
    ∀ (rows : List PSection) (base : Nat),
      builtMap (base + d) rows = (builtMap base rows).map (shiftPair d) := by
  intro rows
  induction rows with
  | nil => intro base; rfl
  | cons sec rest ih =>
    intro base
    simp only [builtMap, List.map_cons, shiftPair, List.cons_eq_cons]
    refine ⟨by simp, ?_⟩
    rw [show base + d + 1 = (base + 1) + d by omega, ih]

theorem builtSections_shift (docId d : Nat) :
    ∀ (rows : List PSection) (base : Nat) (m : List (Nat × Nat)),
      builtSections docId (base + d) (m.map (shiftPair d)) rows =
        (builtSections docId base m rows).map (shiftSectionRow d) := by
  intro rows
  induction rows with
  | nil => intro base m; rfl
  | cons sec rest ih =>
    intro base m
    simp only [builtSections, List.map_cons, List.cons_eq_cons]
    constructor
    · simp [shiftSectionRow, translateOrd_shift]
    · rw [show base + d + 1 = (base + 1) + d by omega]
      rw [show m.map (shiftPair d) ++ [(sec.ord, base + d)] =
        (m ++ [(sec.ord, base)]).map (shiftPair d) by simp [shiftPair]]
      exact ih (base + 1) (m ++ [(sec.ord, base)])

theorem builtClauses_shift (docId dc d : Nat) (m : List (Nat × Nat)) :
    ∀ (rows : List PClause) (base : Nat),
      builtClauses docId (m.map (shiftPair d)) (base + dc) rows =
        (builtClauses docId m base rows).map (shiftClauseRow dc d) := by
  intro rows
  induction rows with
  | nil => intro base; rfl
  | cons cl rest ih =>
    intro base
    simp only [builtClauses, List.map_cons, List.cons_eq_cons]
    constructor
    · simp [shiftClauseRow, translateOrd_shift]
    · rw [show base + dc + 1 = (base + 1) + dc by omega]
      exact ih (base + 1)

theorem builtXrefs_shift (docId dx d : Nat) (m : List (Nat × Nat)) :
    ∀ (rows : List PXref) (base : Nat),
      builtXrefs docId (m.map (shiftPair d)) (base + dx) rows =
        (builtXrefs docId m base rows).map (shiftXrefRow dx d) := by
  intro rows
  induction rows with
  | nil => intro base; rfl
  | cons x rest ih =>
    intro base
    simp only [builtXrefs, List.map_cons, List.cons_eq_cons]
    constructor
    · simp [shiftXrefRow, translateOrd_shift]
    · rw [show base + dx + 1 = (base + 1) + dx by omega]
      exact ih (base + 1)

/-! Content projections: a row compared by content, with the internal
parent/section/source id translated back to the parse ordinal of the row
it references. -/

/-- Translate a stored section id back to the ordinal of that section. -/
def rowOrdOf (secs : List SectionRow) (sid : Option Nat) : Option Nat :=
  sid.bind fun pid => (secs.find? fun q => q.id == pid).map fun q => q.ord

def sectionContentsRows (secs : List SectionRow) :
    List (String × String × Nat × Nat × Option Nat × Option String × Nat × Option Nat) :=
  secs.map fun r =>
    (r.ref, r.title, r.level, r.ord, rowOrdOf secs r.parent_id, r.text,
     r.line_start, r.line_end)

def clauseContentsRows (secs : List SectionRow) (cls : List ClauseRow) :
    List (String × String × Option String × Nat × Option Nat) :=
  cls.map fun r => (r.code, r.text, r.modality, r.line_num, rowOrdOf secs r.section_id)

def xrefContentsRows (secs : List SectionRow) (xs : List XrefRow) :
    List (String × String × String × Nat × Option Nat) :=
  xs.map fun r =>
    (r.target_ref, r.target_type, r.context, r.source_line, rowOrdOf secs r.source_id)

/-- The content of a store's section rows. -/
def sectionContents (s : Store) :
    List (String × String × Nat × Nat × Option Nat × Option String × Nat × Option Nat) :=
  sectionContentsRows s.sections

/-- The content of a store's clause rows. -/
def clauseContents (s : Store) : List (String × String × Option String × Nat × Option Nat) :=
  clauseContentsRows s.sections s.clauses

/-- The content of a store's xref rows. -/
def xrefContents (s : Store) : List (String × String × String × Nat × Option Nat) :=
  xrefContentsRows s.sections s.xrefs

theorem rowOrdOf_shift (d : Nat) (secs : List SectionRow) (sid : Option Nat) :
    rowOrdOf (secs.map (shiftSectionRow d)) (sid.map fun x => x + d) =
      rowOrdOf secs sid := by
  cases sid with
  | none => rfl
  | some pid =>
    show (((secs.map (shiftSectionRow d)).find? fun q => q.id == pid + d).map
        fun q => q.ord) = ((secs.find? fun q => q.id == pid).map fun q => q.ord)
    rw [List.find?_map]
    have hpred : ((fun q : SectionRow => q.id == pid + d) ∘ shiftSectionRow d) =
        fun q : SectionRow => q.id == pid := by
      funext q
      show ((shiftSectionRow d q).id == pid + d) = (q.id == pid)
      have hid : (shiftSectionRow d q).id = q.id + d := rfl
      rw [hid]
      by_cases h : q.id = pid
      · subst h; simp
      · have h2 : q.id + d ≠ pid + d := by omega
        simp [h, h2]
    rw [hpred]
    cases hf : secs.find? fun q => q.id == pid with
    | none => simp [hf]
    | some q => simp [hf, shiftSectionRow]

theorem sectionContentsRows_shift (d : Nat) (secs : List SectionRow) :
    sectionContentsRows (secs.map (shiftSectionRow d)) = sectionContentsRows secs := by
  unfold sectionContentsRows
  rw [List.map_map]
  apply List.map_congr_left
  intro r _
  simp only [Function.comp_apply]
  have h1 : (shiftSectionRow d r).parent_id = r.parent_id.map fun x => x + d := rfl
  rw [h1, rowOrdOf_shift]
  rfl

theorem clauseContentsRows_shift (dc d : Nat) (secs : List SectionRow)
    (cls : List ClauseRow) :
    clauseContentsRows (secs.map (shiftSectionRow d)) (cls.map (shiftClauseRow dc d)) =
      clauseContentsRows secs cls := by
  unfold clauseContentsRows
  rw [List.map_map]
  apply List.map_congr_left
  intro r _
  simp only [Function.comp_apply]
  have h1 : (shiftClauseRow dc d r).section_id = r.section_id.map fun x => x + d := rfl
  rw [h1, rowOrdOf_shift]
  rfl

theorem xrefContentsRows_shift (dx d : Nat) (secs : List SectionRow)
    (xs : List XrefRow) :
    xrefContentsRows (secs.map (shiftSectionRow d)) (xs.map (shiftXrefRow dx d)) =
      xrefContentsRows secs xs := by
  unfold xrefContentsRows
  rw [List.map_map]
  apply List.map_congr_left
  intro r _
  simp only [Function.comp_apply]
  have h1 : (shiftXrefRow dx d r).source_id = r.source_id.map fun x => x + d := rfl
  rw [h1, rowOrdOf_shift]
  rfl

theorem builtSections_filter_self (docId : Nat) :
    ∀ (rows : List PSection) (base : Nat) (m : List (Nat × Nat)),
      (builtSections docId base m rows).filter (fun r => !(r.doc_id == docId)) = [] := by
  intro rows
  induction rows with
  | nil => intro base m; rfl
  | cons sec rest ih =>
    intro base m
    simp only [builtSections, List.filter_cons]
    simp only [beq_self_eq_true, Bool.not_true, Bool.false_eq_true, if_false]
    exact ih (base + 1) (m ++ [(sec.ord, base)])

theorem builtClauses_filter_self (docId : Nat) (m : List (Nat × Nat)) :
    ∀ (rows : List PClause) (base : Nat),
      (builtClauses docId m base rows).filter (fun r => !(r.doc_id == docId)) = [] := by
  intro rows
  induction rows with
  | nil => intro base; rfl
  | cons cl rest ih =>
    intro base
    simp only [builtClauses, List.filter_cons]
    simp only [beq_self_eq_true, Bool.not_true, Bool.false_eq_true, if_false]
    exact ih (base + 1)

theorem builtXrefs_filter_self (docId : Nat) (m : List (Nat × Nat)) :
    ∀ (rows : List PXref) (base : Nat),
      (builtXrefs docId m base rows).filter (fun r => !(r.doc_id == docId)) = [] := by
  intro rows
  induction rows with
  | nil => intro base; rfl
  | cons x rest ih =>
    intro base
    simp only [builtXrefs, List.filter_cons]
    simp only [beq_self_eq_true, Bool.not_true, Bool.false_eq_true, if_false]
    exact ih (base + 1)

/-- The first ingestion into the empty store: the document row gets rowid 1
and the three collections are inserted with fresh consecutive rowids. -/
theorem ingest_noFail_empty (doc_ref title md : String) (version : Option String) :
    ingestFpfSpecMarkdown noFail Store.empty doc_ref title md version =
      .ok ⟨[⟨1, (parseFpfSpecMarkdown md doc_ref title version).doc.ref,
             (parseFpfSpecMarkdown md doc_ref title version).doc.title,
             (parseFpfSpecMarkdown md doc_ref title version).doc.version,
             (parseFpfSpecMarkdown md doc_ref title version).doc.raw_hash⟩],
           builtSections 1 1 [] (parseFpfSpecMarkdown md doc_ref title version).sections,
           builtClauses 1 (builtMap 1 (parseFpfSpecMarkdown md doc_ref title version).sections)
             1 (parseFpfSpecMarkdown md doc_ref title version).clauses,
           builtXrefs 1 (builtMap 1 (parseFpfSpecMarkdown md doc_ref title version).sections)
             1 (parseFpfSpecMarkdown md doc_ref title version).xrefs,
           2, 1 + (parseFpfSpecMarkdown md doc_ref title version).sections.length,
           1 + (parseFpfSpecMarkdown md doc_ref title version).clauses.length,
           1 + (parseFpfSpecMarkdown md doc_ref title version).xrefs.length⟩
          ⟨1, (parseFpfSpecMarkdown md doc_ref title version).sections.length,
           (parseFpfSpecMarkdown md doc_ref title version).clauses.length,
           (parseFpfSpecMarkdown md doc_ref title version).xrefs.length⟩ := by
  unfold ingestFpfSpecMarkdown
  simp only [noFail, Bool.false_eq_true, if_false, Store.empty, List.find?_nil]
  rw [insertAll_noFail]
  simp

/-- Re-ingesting the identical inputs over the first ingestion's result:
the document row is updated in place (to the same values), the old
collections are cascade-deleted, and the collections are reinserted with
fresh rowids. -/
theorem ingest_noFail_twice (doc_ref title md : String) (version : Option String) :
    ingestFpfSpecMarkdown noFail
      (storeAfter (ingestFpfSpecMarkdown noFail Store.empty doc_ref title md version))
      doc_ref title md version =
      .ok ⟨[⟨1, (parseFpfSpecMarkdown md doc_ref title version).doc.ref,
             (parseFpfSpecMarkdown md doc_ref title version).doc.title,
             (parseFpfSpecMarkdown md doc_ref title version).doc.version,
             (parseFpfSpecMarkdown md doc_ref title version).doc.raw_hash⟩],
           builtSections 1 (1 + (parseFpfSpecMarkdown md doc_ref title version).sections.length)
             [] (parseFpfSpecMarkdown md doc_ref title version).sections,
           builtClauses 1
             (builtMap (1 + (parseFpfSpecMarkdown md doc_ref title version).sections.length)
               (parseFpfSpecMarkdown md doc_ref title version).sections)
             (1 + (parseFpfSpecMarkdown md doc_ref title version).clauses.length)
             (parseFpfSpecMarkdown md doc_ref title version).clauses,
           builtXrefs 1
             (builtMap (1 + (parseFpfSpecMarkdown md doc_ref title version).sections.length)
               (parseFpfSpecMarkdown md doc_ref title version).sections)
             (1 + (parseFpfSpecMarkdown md doc_ref title version).xrefs.length)
             (parseFpfSpecMarkdown md doc_ref title version).xrefs,
           2, 1 + (parseFpfSpecMarkdown md doc_ref title version).sections.length +
                (parseFpfSpecMarkdown md doc_ref title version).sections.length,
           1 + (parseFpfSpecMarkdown md doc_ref title version).clauses.length +
                (parseFpfSpecMarkdown md doc_ref title version).clauses.length,
           1 + (parseFpfSpecMarkdown md doc_ref title version).xrefs.length +
                (parseFpfSpecMarkdown md doc_ref title version).xrefs.length⟩
          ⟨1, (parseFpfSpecMarkdown md doc_ref title version).sections.length,
           (parseFpfSpecMarkdown md doc_ref title version).clauses.length,
           (parseFpfSpecMarkdown md doc_ref title version).xrefs.length⟩ := by
  rw [ingest_noFail_empty]
  have href : (parseFpfSpecMarkdown md doc_ref title version).doc.ref = doc_ref := rfl
  unfold ingestFpfSpecMarkdown
  simp only [storeAfter, noFail, Bool.false_eq_true, if_false]
  have hfind : List.find? (fun d2 => d2.ref == doc_ref)
      [(⟨1, (parseFpfSpecMarkdown md doc_ref title version).doc.ref,
         (parseFpfSpecMarkdown md doc_ref title version).doc.title,
         (parseFpfSpecMarkdown md doc_ref title version).doc.version,
         (parseFpfSpecMarkdown md doc_ref title version).doc.raw_hash⟩ : DocRow)] =
      some ⟨1, (parseFpfSpecMarkdown md doc_ref title version).doc.ref,
        (parseFpfSpecMarkdown md doc_ref title version).doc.title,
        (parseFpfSpecMarkdown md doc_ref title version).doc.version,
        (parseFpfSpecMarkdown md doc_ref title version).doc.raw_hash⟩ := by
    apply List.find?_cons_of_pos
    simp [href]
  rw [hfind]
  simp only [builtSections_filter_self, builtClauses_filter_self, builtXrefs_filter_self]
  rw [insertAll_noFail]
  simp

/-- C1: ingesting the same document twice (identical text, reference, title
and version) into an empty store leaves exactly one document row for that
external reference, and the section, clause and xref rows — compared by
content, with internal ids translated back to parse ordinals — are
identical to those of a single ingestion. -/
theorem C1_idempotent_reingestion (md doc_ref title : String) (version : Option String) :
    ((storeAfter (ingestFpfSpecMarkdown noFail
        (storeAfter (ingestFpfSpecMarkdown noFail Store.empty doc_ref title md version))
        doc_ref title md version)).docs.filter fun d2 => d2.ref == doc_ref).length = 1 ∧
    sectionContents (storeAfter (ingestFpfSpecMarkdown noFail
        (storeAfter (ingestFpfSpecMarkdown noFail Store.empty doc_ref title md version))
        doc_ref title md version)) =
      sectionContents (storeAfter
        (ingestFpfSpecMarkdown noFail Store.empty doc_ref title md version)) ∧
    clauseContents (storeAfter (ingestFpfSpecMarkdown noFail
        (storeAfter (ingestFpfSpecMarkdown noFail Store.empty doc_ref title md version))
        doc_ref title md version)) =
      clauseContents (storeAfter
        (ingestFpfSpecMarkdown noFail Store.empty doc_ref title md version)) ∧
    xrefContents (storeAfter (ingestFpfSpecMarkdown noFail
        (storeAfter (ingestFpfSpecMarkdown noFail Store.empty doc_ref title md version))
        doc_ref title md version)) =
      xrefContents (storeAfter
        (ingestFpfSpecMarkdown noFail Store.empty doc_ref title md version)) := by
  have href : (parseFpfSpecMarkdown md doc_ref title version).doc.ref = doc_ref := rfl
  have hb : builtSections 1
      (1 + (parseFpfSpecMarkdown md doc_ref title version).sections.length) []
      (parseFpfSpecMarkdown md doc_ref title version).sections =
      (builtSections 1 1 [] (parseFpfSpecMarkdown md doc_ref title version).sections).map
        (shiftSectionRow (parseFpfSpecMarkdown md doc_ref title version).sections.length) := by
    simpa using builtSections_shift 1
      (parseFpfSpecMarkdown md doc_ref title version).sections.length
      (parseFpfSpecMarkdown md doc_ref title version).sections 1 []
  have hm : builtMap (1 + (parseFpfSpecMarkdown md doc_ref title version).sections.length)
      (parseFpfSpecMarkdown md doc_ref title version).sections =
      (builtMap 1 (parseFpfSpecMarkdown md doc_ref title version).sections).map
        (shiftPair (parseFpfSpecMarkdown md doc_ref title version).sections.length) :=
    builtMap_shift (parseFpfSpecMarkdown md doc_ref title version).sections.length
      (parseFpfSpecMarkdown md doc_ref title version).sections 1
  have hc : builtClauses 1
      (builtMap (1 + (parseFpfSpecMarkdown md doc_ref title version).sections.length)
        (parseFpfSpecMarkdown md doc_ref title version).sections)
      (1 + (parseFpfSpecMarkdown md doc_ref title version).clauses.length)
      (parseFpfSpecMarkdown md doc_ref title version).clauses =
      (builtClauses 1 (builtMap 1 (parseFpfSpecMarkdown md doc_ref title version).sections)
        1 (parseFpfSpecMarkdown md doc_ref title version).clauses).map
        (shiftClauseRow (parseFpfSpecMarkdown md doc_ref title version).clauses.length
          (parseFpfSpecMarkdown md doc_ref title version).sections.length) := by
    rw [hm]
    exact builtClauses_shift 1
      (parseFpfSpecMarkdown md doc_ref title version).clauses.length
      (parseFpfSpecMarkdown md doc_ref title version).sections.length
      (builtMap 1 (parseFpfSpecMarkdown md doc_ref title version).sections)
      (parseFpfSpecMarkdown md doc_ref title version).clauses 1
  have hx : builtXrefs 1
      (builtMap (1 + (parseFpfSpecMarkdown md doc_ref title version).sections.length)
        (parseFpfSpecMarkdown md doc_ref title version).sections)
      (1 + (parseFpfSpecMarkdown md doc_ref title version).xrefs.length)
      (parseFpfSpecMarkdown md doc_ref title version).xrefs =
      (builtXrefs 1 (builtMap 1 (parseFpfSpecMarkdown md doc_ref title version).sections)
        1 (parseFpfSpecMarkdown md doc_ref title version).xrefs).map
        (shiftXrefRow (parseFpfSpecMarkdown md doc_ref title version).xrefs.length
          (parseFpfSpecMarkdown md doc_ref title version).sections.length) := by
    rw [hm]
    exact builtXrefs_shift 1
      (parseFpfSpecMarkdown md doc_ref title version).xrefs.length
      (parseFpfSpecMarkdown md doc_ref title version).sections.length
      (builtMap 1 (parseFpfSpecMarkdown md doc_ref title version).sections)
      (parseFpfSpecMarkdown md doc_ref title version).xrefs 1
  refine ⟨?_, ?_, ?_, ?_⟩
  · rw [ingest_noFail_twice]
    simp [storeAfter, href]
  · rw [ingest_noFail_twice, ingest_noFail_empty]
    simp only [storeAfter]
    show sectionContentsRows _ = sectionContentsRows _
    rw [hb, sectionContentsRows_shift]
  · rw [ingest_noFail_twice, ingest_noFail_empty]
    simp only [storeAfter]
    show clauseContentsRows _ _ = clauseContentsRows _ _
    rw [hb, hc, clauseContentsRows_shift]
  · rw [ingest_noFail_twice, ingest_noFail_empty]
    simp only [storeAfter]
    show xrefContentsRows _ _ = xrefContentsRows _ _
    rw [hb, hx, xrefContentsRows_shift]

end FPF
